import Mathlib

/-!
# go-flow-levee, package `fieldtags`: a verification development

A shallow embedding of `internal/pkg/fieldtags/analyzer.go`.

* A Go `string` is a sequence of bytes; it is embedded as `List Nat`, one
  number per byte.  The bytes the code compares against are
  `':'` = 58, `'"'` = 34, `'\\'` = 92, `','` = 44; the examples also use
  the backtick 96 and the space 32.
* Go `int` indices are embedded as `Nat`: every index the code computes is
  at most `len(wholeTag) + 2`, far from the 64-bit range.
* A run-time panic (slice bounds out of range, failed type assertion, index
  out of range) is an explicit outcome of the embedded function.
* Loops are embedded as recursion on a fuel argument; for every loop the
  fuel passed by the caller is shown to be sufficient.
-/

namespace fieldtags

/-! ## Go strings -/

/-- A Go string: its bytes. -/
abbrev GoString := List Nat

/-- The bytes of an ASCII string literal (one byte per character). -/
def ascii (s : String) : GoString := s.toList.map Char.toNat

/-- Go slice expression `s[i:j]` on a string: panics (`none`) unless
`i ≤ j ≤ len(s)`. -/
def slice (s : GoString) (i j : Nat) : Option GoString :=
  if i ≤ j ∧ j ≤ s.length then some ((s.drop i).take (j - i)) else none

/-- Go `strings.TrimSuffix(s, suffix)`: `s` without the trailing `suffix`
when `s` ends with it, `s` unchanged otherwise. -/
def TrimSuffix (s suffix : GoString) : GoString :=
  if suffix.isSuffixOf s then s.take (s.length - suffix.length) else s

/-- Go `strings.Split(s, sep)` for a one-byte separator: the substrings
between the occurrences of `sep`; a string without `sep` (the empty one
included) gives the one-element list `[s]`. -/
def Split (sep : Nat) : GoString → List GoString
  | [] => [[]]
  | b :: bs =>
    if b = sep then [] :: Split sep bs
    else
      match Split sep bs with
      | [] => [[b]]
      | h :: t => (b :: h) :: t

/-- Go `strings.Join(elems, sep)`. -/
def Join : List GoString → GoString → GoString
  | [], _ => []
  | [a], _ => a
  | a :: b :: rest, sep => a ++ sep ++ Join (b :: rest) sep

/-! ## `extractTags` -/

/-- The source's `fieldTag` struct. -/
structure fieldTag where
  key : GoString
  val : GoString
deriving DecidableEq

/-- An `*ast.BasicLit`: only its `Value` is read. -/
structure BasicLit where
  Value : GoString
deriving DecidableEq

/-- What a call of an embedded Go function does: return a value, panic, or
(for a loop run with a bound on its iterations) hit the bound. -/
inductive Outcome (α : Type) where
  | ok (a : α)
  | panic
  | fuel
deriving DecidableEq

/-- The first inner loop of `extractTags`,
`for j < len(wholeTag) && wholeTag[j] != ':' { j++ }`, returning the final `j`.
The read is guarded by `j < len(wholeTag)`. -/
def scanKeyLoop (wholeTag : GoString) : Nat → Nat → Nat
  | 0, j => j
  | fuel + 1, j =>
    match wholeTag[j]? with
    | some b => if b ≠ 58 then scanKeyLoop wholeTag fuel (j + 1) else j
    | none => j

/-- The key scan with the fuel it needs: `j` moves by one per iteration and
stops at `len(wholeTag)` at the latest. -/
def scanKey (wholeTag : GoString) (j : Nat) : Nat :=
  scanKeyLoop wholeTag (wholeTag.length - j) j

/-- The second inner loop of `extractTags`,
`for j < len(wholeTag) && wholeTag[j] != '"' { if wholeTag[j] == '\\' { j++ }; j++ }`,
returning the final `j` (which can be `len(wholeTag) + 1`). -/
def scanValueLoop (wholeTag : GoString) : Nat → Nat → Nat
  | 0, j => j
  | fuel + 1, j =>
    match wholeTag[j]? with
    | some b =>
      if b ≠ 34 then
        scanValueLoop wholeTag fuel (if b = 92 then j + 1 + 1 else j + 1)
      else j
    | none => j

/-- The value scan with the fuel it needs. -/
def scanValue (wholeTag : GoString) (j : Nat) : Nat :=
  scanValueLoop wholeTag (wholeTag.length - j) j

/-- What one iteration of the outer loop of `extractTags` does. -/
inductive Step where
  /-- a `return` statement: the function returns the named result `tags` -/
  | ret (tags : List fieldTag)
  /-- a slice expression out of bounds -/
  | panic
  /-- the end of the loop body is reached with these `i`, `j`, `tags` -/
  | next (i j : Nat) (tags : List fieldTag)
deriving DecidableEq

/-- The body of the outer loop of `extractTags` (source lines 107-145), run
from the variables `i`, `j`, `tags`. -/
def body (wholeTag : GoString) (i j : Nat) (tags : List fieldTag) : Step :=
  let j := scanKey wholeTag j
  match slice wholeTag i j with
  | none => .panic
  | some key =>
    if key = [] then .ret tags
    else
      let i := j + 1 -- skip colon
      if i ≥ wholeTag.length then .ret tags
      else
        let i := if wholeTag[i]? = some 92 then i + 1 else i
        let i := i + 1 -- skip quote
        let j := scanValue wholeTag i
        match slice wholeTag i j with
        | none => .panic
        | some value =>
          -- remove trailing escaped quote if present
          let value := TrimSuffix value [92, 34]
          if value = [] then .ret tags
          else
            -- value may be a list of comma separated values
            let tags := tags ++ (Split 44 value).map (fun v => fieldTag.mk key v)
            let i := j + 2 -- skip closing quote and space
            let j := i
            .next i j tags

/-- The outer loop `for j < len(wholeTag) { ... }` of `extractTags`, with a
bound on the number of iterations; `Outcome.fuel` when the bound is hit
while the loop condition still holds. -/
def loop (wholeTag : GoString) : Nat → Nat → Nat → List fieldTag → Outcome (List fieldTag)
  | 0, _, j, tags => if j < wholeTag.length then .fuel else .ok tags
  | fuel + 1, i, j, tags =>
    if j < wholeTag.length then
      match body wholeTag i j tags with
      | .ret tags => .ok tags
      | .panic => .panic
      | .next i j tags => loop wholeTag fuel i j tags
    else .ok tags

/-- The part of `extractTags` after `wholeTag := field.Tag.Value`: the loop
started from `i := 1`, `j := 1` and no entries.  The bound `len(wholeTag)` on
the iterations is never hit (`parseTag_ne_fuel`). -/
def parseTag (wholeTag : GoString) : Outcome (List fieldTag) :=
  loop wholeTag wholeTag.length 1 1 []

/-- An `*ast.Ident`: its position and its name. -/
structure Ident where
  NamePos : Nat
  Name : GoString
deriving DecidableEq

/-- An `*ast.Field`: the declared names (none for an embedded field), the
position of its type, and the tag literal (`nil` when the field has none). -/
structure Field where
  Names : List Ident
  TypePos : Nat
  Tag : Option BasicLit
deriving DecidableEq

/-- Go `ast.Field.Pos`: the position of the first name, or of the type when the
field declares no name. -/
def Field.Pos (f : Field) : Nat :=
  match f.Names with
  | ident :: _ => ident.NamePos
  | [] => f.TypePos

/-- The source's `extractTags`. -/
def extractTags (field : Field) : Outcome (List fieldTag) :=
  match field.Tag with
  | none => .ok []
  | some tag => parseTag tag.Value

/-! ## `run` -/

/-- The identity of a `types.Object`. -/
abbrev Object := Nat

/-- The source's `ResultType`, a Go `map[types.Object]bool`, as the list of
the assignments made to it, latest first; a lookup finds the latest
assignment to the key. -/
abbrev ResultType := List (Object × Bool)

/-- The `Type` of an `*ast.TypeSpec`: an `*ast.StructType` with its `Fields`
(`nil` or a field list), or any other type expression. -/
inductive TypeExpr where
  | StructType (Fields : Option (List Field))
  | Other
deriving DecidableEq

/-- An `*ast.TypeSpec`; `Type_` is its field `Type`. -/
structure TypeSpec where
  Name : Ident
  Type_ : TypeExpr
deriving DecidableEq

/-- The configuration read by `config.ReadConfig`: only `IsSourceFieldTag`
is used. -/
structure Config where
  IsSourceFieldTag : GoString → GoString → Bool

/-- What `run` reads of its `*analysis.Pass`: the `*ast.TypeSpec` nodes in
the order `Preorder` visits them, and `TypesInfo.ObjectOf`. -/
structure Pass where
  TypeSpecs : List TypeSpec
  ObjectOf : Ident → Object

/-- A diagnostic reported through `pass.Reportf`. -/
structure Diagnostic where
  Pos : Nat
  Message : GoString
deriving DecidableEq

/-- The state `run` updates: the map `taggedFields` and the diagnostics
reported so far. -/
abbrev ScanState := ResultType × List Diagnostic

/-- The loop `for _, ft := range tags` of `run` (lines 75-80). -/
def isTaggedField (conf : Config) (tags : List fieldTag) : Bool :=
  tags.foldl (fun tagged ft => if conf.IsSourceFieldTag ft.key ft.val then true else tagged) false

/-- The loop `for i, ident := range f.Names` of `run` (lines 85-88), on the
map. -/
def recordNames (pass : Pass) (names : List Ident) (taggedFields : ResultType) : ResultType :=
  names.foldl (fun m ident => (pass.ObjectOf ident, true) :: m) taggedFields

/-- The body of the loop over the fields of a struct in `run` (lines
74-89). -/
def scanField (conf : Config) (pass : Pass) (st : ScanState) (f : Field) : Outcome ScanState :=
  match extractTags f with
  | .panic => .panic
  | .fuel => .fuel
  | .ok tags =>
    if !isTaggedField conf tags || f.Names.length == 0 then .ok st
    else
      let fNames := f.Names.map (fun ident => ident.Name)
      let taggedFields := recordNames pass f.Names st.1
      .ok (taggedFields, st.2 ++ [⟨f.Pos, ascii "tagged field: " ++ Join fNames (ascii ", ")⟩])

/-- The loop `for _, f := range (*s).Fields.List` of `run`. -/
def scanFields (conf : Config) (pass : Pass) : List Field → ScanState → Outcome ScanState
  | [], st => .ok st
  | f :: fs, st =>
    match scanField conf pass st f with
    | .ok st => scanFields conf pass fs st
    | .panic => .panic
    | .fuel => .fuel

/-- The function `run` passes to `Preorder`, on one `*ast.TypeSpec`. -/
def visit (conf : Config) (pass : Pass) (st : ScanState) (t : TypeSpec) : Outcome ScanState :=
  match t.Type_ with
  | .StructType (some fields) => scanFields conf pass fields st
  | .StructType none => .ok st
  | .Other => .ok st

/-- The traversal `inspectResult.Preorder(nodeFilter, ...)` of `run`. -/
def preorder (conf : Config) (pass : Pass) : List TypeSpec → ScanState → Outcome ScanState
  | [], st => .ok st
  | t :: ts, st =>
    match visit conf pass st t with
    | .ok st => preorder conf pass ts st
    | .panic => .panic
    | .fuel => .fuel

/-- What a call of `run` does. -/
inductive RunResult where
  /-- the statement `return ResultType(taggedFields), nil`, with the
  diagnostics reported -/
  | ok (result : ResultType) (diagnostics : List Diagnostic)
  /-- the statement `return nil, err` -/
  | err
  | panic
  | fuel
deriving DecidableEq

/-- The source's `run`; `ReadConfig` is the result of `config.ReadConfig()`,
`none` when it returns an error. -/
def run (ReadConfig : Option Config) (pass : Pass) : RunResult :=
  match ReadConfig with
  | none => .err
  | some conf =>
    match preorder conf pass pass.TypeSpecs ([], []) with
    | .ok st => .ok st.1 st.2
    | .panic => .panic
    | .fuel => .fuel

/-! ## The query API -/

/-- A `types.Type`, as far as `IsSourceFieldAddr` inspects it; a struct type
is the list of its fields (`*types.Var`, by identity). -/
inductive GoType where
  | Pointer (elem : GoType)
  | Struct (fields : List Object)
  | Named (underlying : GoType)
  | Basic
deriving DecidableEq

/-- Go `types.Type.Underlying`: the underlying type of a named type, the
type itself otherwise. -/
def GoType.Underlying : GoType → GoType
  | .Named u => u
  | t => t

/-- An `*ssa.FieldAddr`: the static type of its operand `X` and the index
`Field`. -/
structure FieldAddr where
  XType : GoType
  Field : Int
deriving DecidableEq

/-- The source's `ResultType.IsSource`: the map lookup `r[field]`, `false`
for a missing key. -/
def IsSource (r : ResultType) (field : Object) : Bool :=
  (r.lookup field).getD false

/-- The source's `ResultType.IsSourceFieldAddr`; the two type assertions and
`Struct.Field(i)` panic when they fail. -/
def IsSourceFieldAddr (r : ResultType) (fa : FieldAddr) : Outcome Bool :=
  match fa.XType.Underlying with
  | .Pointer elem =>
    match elem.Underlying with
    | .Struct fields =>
      if fa.Field < 0 then .panic
      else
        match fields[fa.Field.toNat]? with
        | some field => .ok (IsSource r field)
        | none => .panic
    | _ => .panic
  | _ => .panic

/-! ## Tag literals in the `key:"value"` grammar -/

/-- The text of one tag segment `key:"value"`, from the pair (key, value). -/
def segment (kv : GoString × GoString) : GoString :=
  kv.1 ++ (58 :: 34 :: (kv.2 ++ [34]))

/-- The entries a segment stands for: one per element of the comma-split of
its value, all with the segment's key. -/
def segmentTags (kv : GoString × GoString) : List fieldTag :=
  (Split 44 kv.2).map (fun s => fieldTag.mk kv.1 s)

/-- A well-formed segment: non-empty key without `':'`, non-empty value
without `'"'` and without backslash. -/
def WellFormed (kv : GoString × GoString) : Prop :=
  kv.1 ≠ [] ∧ 58 ∉ kv.1 ∧ kv.2 ≠ [] ∧ 34 ∉ kv.2 ∧ 92 ∉ kv.2

instance (kv : GoString × GoString) : Decidable (WellFormed kv) := by
  unfold WellFormed
  infer_instance

/-- The backtick-delimited literal with the given content. -/
def backquoted (content : GoString) : GoString :=
  96 :: (content ++ [96])

/-- The fields of a type declaration that `run` scans: those of a struct
type, none for any other type. -/
def declaredFields (t : TypeSpec) : List Field :=
  match t.Type_ with
  | .StructType (some fields) => fields
  | _ => []

/-- The fields `run` scans: those of the struct type declarations, in
declaration order. -/
def structFields (pass : Pass) : List Field :=
  pass.TypeSpecs.flatMap declaredFields

/-- Whether `extractTags` returns, for the field, an entry that satisfies the
predicate of the configuration. -/
def hasSourceTag (conf : Config) (f : Field) : Bool :=
  match extractTags f with
  | .ok tags => tags.any fun ft => conf.IsSourceFieldTag ft.key ft.val
  | _ => false

/-- A field with an entry that satisfies the predicate and with at least one
declared name. -/
def isRecorded (conf : Config) (f : Field) : Bool :=
  hasSourceTag conf f && !f.Names.isEmpty

/-- An identity is that of a declared name of some field of a struct type
declaration whose tag literal has, among the entries `extractTags` returns,
one that satisfies the predicate. -/
def TaggedIdentity (conf : Config) (pass : Pass) (id : Object) : Prop :=
  ∃ f ∈ structFields pass, ∃ ident ∈ f.Names, pass.ObjectOf ident = id ∧
    ∃ lit, f.Tag = some lit ∧ ∃ tags, extractTags f = .ok tags ∧
      ∃ ft ∈ tags, conf.IsSourceFieldTag ft.key ft.val = true

/-- Example configuration: the pair `levee:"source"` marks a source field. -/
def exampleConfig : Config :=
  ⟨fun key val => key == ascii "levee" && val == ascii "source"⟩

/-- Example compilation unit, with identifiers resolved to their position:
`type A struct { x, y T "levee:source"; z int }`,
`type B struct { Name string "json:name,omitempty levee:source"; T "levee:source" }`
(the second field embedded),
`type C struct { Secret string "levee:source"; Plain string "json:plain" }`,
`type D int`. -/
def examplePass : Pass :=
  ⟨[⟨⟨5, ascii "A"⟩, .StructType (some [
        ⟨[⟨10, ascii "x"⟩, ⟨13, ascii "y"⟩], 15, some ⟨ascii "`levee:\"source\"`"⟩⟩,
        ⟨[⟨40, ascii "z"⟩], 42, none⟩])⟩,
    ⟨⟨55, ascii "B"⟩, .StructType (some [
        ⟨[⟨60, ascii "Name"⟩], 65,
          some ⟨ascii "`json:\"name,omitempty\" levee:\"source\"`"⟩⟩,
        ⟨[], 110, some ⟨ascii "`levee:\"source\"`"⟩⟩])⟩,
    ⟨⟨135, ascii "C"⟩, .StructType (some [
        ⟨[⟨140, ascii "Secret"⟩], 147, some ⟨ascii "`levee:\"source\"`"⟩⟩,
        ⟨[⟨170, ascii "Plain"⟩], 176, some ⟨ascii "`json:\"plain\"`"⟩⟩])⟩,
    ⟨⟨200, ascii "D"⟩, .Other⟩],
   fun ident => ident.NamePos⟩

/-- Sequencing of outcomes: the second step runs when the first returns. -/
def Outcome.andThen {α β : Type} (o : Outcome α) (k : α → Outcome β) : Outcome β :=
  match o with
  | .ok a => k a
  | .panic => .panic
  | .fuel => .fuel

/-- The diagnostic of a tagged field. -/
def taggedFieldDiagnostic (f : Field) : Diagnostic :=
  ⟨f.Pos, ascii "tagged field: " ++ Join (f.Names.map fun ident => ident.Name) (ascii ", ")⟩

/-- A raw tag literal as the Go parser delivers it in `field.Tag.Value`: the
source text of a string literal, of two bytes at least, that starts and ends
with a backtick or starts and ends with a double quote.  Nothing is asked of
the text between the delimiters. -/
def IsStringLiteral (w : GoString) : Prop :=
  2 ≤ w.length
    ∧ ((w.head? = some 96 ∧ w.getLast? = some 96) ∨ (w.head? = some 34 ∧ w.getLast? = some 34))

instance (w : GoString) : Decidable (IsStringLiteral w) := by
  unfold IsStringLiteral
  infer_instance

/-! ## Values with escapes, accesses, iterations -/

/-- A value made of ordinary bytes (neither `'"'` nor backslash) and of
two-byte escape pairs (a backslash followed by any byte). -/
inductive Escaped : GoString → Prop where
  | nil : Escaped []
  | plain (c : Nat) (v : GoString) (h34 : c ≠ 34) (h92 : c ≠ 92) (hv : Escaped v) :
      Escaped (c :: v)
  | pair (c : Nat) (v : GoString) (hv : Escaped v) : Escaped (92 :: c :: v)

/-- An access `extractTags` makes to `wholeTag`: an index expression
`wholeTag[idx]` or a slice expression `wholeTag[i:j]`. -/
inductive Access where
  | read (idx : Nat)
  | slice (i j : Nat)
deriving DecidableEq

/-- The bounds of the claim on an access: a read below `len(wholeTag)`, a
slice with `1 ≤ i ≤ j ≤ len(wholeTag)`. -/
def Access.InBounds (wholeTag : GoString) : Access → Prop
  | .read idx => idx < wholeTag.length
  | .slice i j => 1 ≤ i ∧ i ≤ j ∧ j ≤ wholeTag.length

instance (wholeTag : GoString) (a : Access) : Decidable (a.InBounds wholeTag) := by
  cases a <;> unfold Access.InBounds <;> infer_instance

/-- The reads of the first inner loop, in order: `wholeTag[j]` is read in the
loop condition when `j < len(wholeTag)` holds. -/
def scanKeyReads (wholeTag : GoString) : Nat → Nat → List Access
  | 0, _ => []
  | fuel + 1, j =>
    match wholeTag[j]? with
    | some b => .read j :: (if b ≠ 58 then scanKeyReads wholeTag fuel (j + 1) else [])
    | none => []

/-- The reads of the second inner loop, in order: `wholeTag[j]` is read in the
loop condition when `j < len(wholeTag)` holds, and again in the test for the
escape character when the loop body runs. -/
def scanValueReads (wholeTag : GoString) : Nat → Nat → List Access
  | 0, _ => []
  | fuel + 1, j =>
    match wholeTag[j]? with
    | some b =>
      .read j ::
        (if b ≠ 34 then
          .read j :: scanValueReads wholeTag fuel (if b = 92 then j + 1 + 1 else j + 1)
        else [])
    | none => []

/-- The accesses of one iteration of the outer loop, in order, following the
control flow of `body`: nothing is accessed after a `return` or a panic. -/
def bodyAccesses (wholeTag : GoString) (i j : Nat) : List Access :=
  let j₁ := scanKey wholeTag j
  scanKeyReads wholeTag (wholeTag.length - j) j ++ .slice i j₁ ::
    match slice wholeTag i j₁ with
    | none => []
    | some key =>
      if key = [] then []
      else
        let i₁ := j₁ + 1
        if i₁ ≥ wholeTag.length then []
        else
          let i₂ := (if wholeTag[i₁]? = some 92 then i₁ + 1 else i₁) + 1
          let j₂ := scanValue wholeTag i₂
          .read i₁ :: (scanValueReads wholeTag (wholeTag.length - i₂) i₂ ++ [.slice i₂ j₂])

/-- The accesses of the outer loop, in order. -/
def loopAccesses (wholeTag : GoString) : Nat → Nat → Nat → List fieldTag → List Access
  | 0, _, _, _ => []
  | fuel + 1, i, j, tags =>
    if j < wholeTag.length then
      bodyAccesses wholeTag i j ++
        match body wholeTag i j tags with
        | .next i j tags => loopAccesses wholeTag fuel i j tags
        | _ => []
    else []

/-- The accesses `extractTags` makes to `wholeTag`, in order. -/
def extractTagsAccesses (field : Field) : List Access :=
  match field.Tag with
  | none => []
  | some tag => loopAccesses tag.Value tag.Value.length 1 1 []

/-- The number of iterations of the outer loop that are entered. -/
def loopIterations (wholeTag : GoString) : Nat → Nat → Nat → List fieldTag → Nat
  | 0, _, _, _ => 0
  | fuel + 1, i, j, tags =>
    if j < wholeTag.length then
      1 + match body wholeTag i j tags with
        | .next i j tags => loopIterations wholeTag fuel i j tags
        | _ => 0
    else 0

/-! ## Lemmas on the scans -/

theorem scanKeyLoop_ge (w : GoString) (fuel j : Nat) : j ≤ scanKeyLoop w fuel j := by
  induction fuel generalizing j with
  | zero => simp [scanKeyLoop]
  | succ n ih =>
    simp only [scanKeyLoop]
    split
    · split
      · exact Nat.le_trans (Nat.le_succ j) (ih (j + 1))
      · exact Nat.le_refl j
    · exact Nat.le_refl j

theorem scanKeyLoop_le (w : GoString) (fuel j : Nat) (h : j ≤ w.length) :
    scanKeyLoop w fuel j ≤ w.length := by
  induction fuel generalizing j with
  | zero => simpa [scanKeyLoop] using h
  | succ n ih =>
    simp only [scanKeyLoop]
    split
    · rename_i b hb
      have hj : j < w.length := (List.getElem?_eq_some.mp hb).1
      split
      · exact ih (j + 1) hj
      · exact h
    · exact h

theorem scanValueLoop_ge (w : GoString) (fuel j : Nat) : j ≤ scanValueLoop w fuel j := by
  induction fuel generalizing j with
  | zero => simp [scanValueLoop]
  | succ n ih =>
    simp only [scanValueLoop]
    split
    · split
      · split
        · exact Nat.le_trans (by omega) (ih (j + 1 + 1))
        · exact Nat.le_trans (by omega) (ih (j + 1))
      · exact Nat.le_refl j
    · exact Nat.le_refl j

/-- The key scan satisfies the equation of the source loop. -/
theorem scanKey_eq (w : GoString) (j : Nat) :
    scanKey w j =
      match w[j]? with
      | some b => if b ≠ 58 then scanKey w (j + 1) else j
      | none => j := by
  unfold scanKey
  rcases Nat.lt_or_ge j w.length with h | h
  · obtain ⟨n, hn⟩ : ∃ n, w.length - j = n + 1 := ⟨w.length - j - 1, by omega⟩
    have hn1 : w.length - (j + 1) = n := by omega
    rw [hn, hn1]
    simp only [scanKeyLoop]
  · have h0 : w[j]? = none := List.getElem?_eq_none h
    have hn : w.length - j = 0 := by omega
    rw [hn, h0]
    simp [scanKeyLoop]

/-- Any fuel that covers the rest of the string gives the value scan the
same result. -/
theorem scanValueLoop_fuel (w : GoString) (f₁ f₂ j : Nat)
    (h₁ : w.length ≤ f₁ + j) (h₂ : w.length ≤ f₂ + j) :
    scanValueLoop w f₁ j = scanValueLoop w f₂ j := by
  induction f₁ generalizing f₂ j with
  | zero =>
    have h0 : w[j]? = none := List.getElem?_eq_none (by omega)
    cases f₂ <;> simp [scanValueLoop, h0]
  | succ n ih =>
    cases f₂ with
    | zero =>
      have h0 : w[j]? = none := List.getElem?_eq_none (by omega)
      simp [scanValueLoop, h0]
    | succ m =>
      simp only [scanValueLoop]
      split
      · split
        · split
          · exact ih m (j + 1 + 1) (by omega) (by omega)
          · exact ih m (j + 1) (by omega) (by omega)
        · rfl
      · rfl

/-- The value scan satisfies the equation of the source loop. -/
theorem scanValue_eq (w : GoString) (j : Nat) :
    scanValue w j =
      match w[j]? with
      | some b => if b ≠ 34 then scanValue w (if b = 92 then j + 1 + 1 else j + 1) else j
      | none => j := by
  unfold scanValue
  rcases Nat.lt_or_ge j w.length with h | h
  · obtain ⟨n, hn⟩ : ∃ n, w.length - j = n + 1 := ⟨w.length - j - 1, by omega⟩
    rw [hn]
    simp only [scanValueLoop]
    have hb : ∃ b, w[j]? = some b := ⟨w[j], List.getElem?_eq_getElem h⟩
    obtain ⟨b, hb⟩ := hb
    rw [hb]
    simp only
    by_cases h34 : b = 34
    · simp [h34]
    · simp only [ne_eq, h34, not_false_eq_true, if_true]
      by_cases h92 : b = 92
      · simp only [h92, if_true]
        exact scanValueLoop_fuel w _ _ _ (by omega) (by omega)
      · simp only [h92, if_false]
        have hn1 : w.length - (j + 1) = n := by omega
        rw [hn1]
  · have h0 : w[j]? = none := List.getElem?_eq_none h
    have hn : w.length - j = 0 := by omega
    rw [hn, h0]
    simp [scanValueLoop]

theorem scanKey_run (w : GoString) (n j : Nat)
    (h : ∀ x, x < n → ∃ b, w[j + x]? = some b ∧ b ≠ 58) :
    scanKey w j = scanKey w (j + n) := by
  induction n generalizing j with
  | zero => rfl
  | succ n ih =>
    obtain ⟨b, hb, hne⟩ := h 0 (by omega)
    rw [scanKey_eq w j]
    simp only [Nat.add_zero] at hb
    rw [hb]
    simp only [ne_eq, hne, not_false_eq_true, if_true]
    rw [ih (j + 1) (fun x hx => by
      have := h (x + 1) (by omega)
      rwa [show j + 1 + x = j + (x + 1) by omega])]
    congr 1
    omega

theorem scanKey_stop (w : GoString) (j : Nat) (h : w[j]? = some 58 ∨ w[j]? = none) :
    scanKey w j = j := by
  rw [scanKey_eq]
  rcases h with h | h <;> simp [h]

theorem scanValue_run (w : GoString) (n j : Nat)
    (h : ∀ x, x < n → ∃ b, w[j + x]? = some b ∧ b ≠ 34 ∧ b ≠ 92) :
    scanValue w j = scanValue w (j + n) := by
  induction n generalizing j with
  | zero => rfl
  | succ n ih =>
    obtain ⟨b, hb, h34, h92⟩ := h 0 (by omega)
    rw [scanValue_eq w j]
    simp only [Nat.add_zero] at hb
    rw [hb]
    simp only [ne_eq, h34, not_false_eq_true, if_true, h92, if_false]
    rw [ih (j + 1) (fun x hx => by
      have := h (x + 1) (by omega)
      rwa [show j + 1 + x = j + (x + 1) by omega])]
    congr 1
    omega

theorem scanValue_stop (w : GoString) (j : Nat) (h : w[j]? = some 34 ∨ w[j]? = none) :
    scanValue w j = j := by
  rw [scanValue_eq]
  rcases h with h | h <;> simp [h]

/-! ## Lemmas on strings built by concatenation -/

theorem getElem?_mid (pre t rest : GoString) (x : Nat) (hx : x < t.length) :
    (pre ++ (t ++ rest))[pre.length + x]? = t[x]? := by
  rw [List.getElem?_append_right (by omega)]
  rw [show pre.length + x - pre.length = x by omega]
  exact List.getElem?_append_left hx

theorem getElem?_at (pre rest : GoString) :
    (pre ++ rest)[pre.length]? = rest[0]? := by
  rw [List.getElem?_append_right (Nat.le_refl _)]
  simp

theorem slice_mid (pre t rest : GoString) :
    slice (pre ++ (t ++ rest)) pre.length (pre.length + t.length) = some t := by
  unfold slice
  rw [if_pos (by simp)]
  simp

theorem scanKey_mid (pre t rest : GoString) (ht : 58 ∉ t)
    (hr : rest[0]? = some 58 ∨ rest[0]? = none) :
    scanKey (pre ++ (t ++ rest)) pre.length = pre.length + t.length := by
  rw [scanKey_run _ t.length pre.length]
  · apply scanKey_stop
    have : (pre ++ (t ++ rest))[pre.length + t.length]? = rest[0]? := by
      rw [← List.append_assoc, ← List.length_append]
      exact getElem?_at (pre ++ t) rest
    rw [this]
    exact hr
  · intro x hx
    refine ⟨t[x], ?_, ?_⟩
    · rw [getElem?_mid pre t rest x hx]
      exact List.getElem?_eq_getElem hx
    · intro h
      exact ht (h ▸ List.getElem_mem hx)

theorem scanValue_mid (pre t rest : GoString) (h34 : 34 ∉ t) (h92 : 92 ∉ t)
    (hr : rest[0]? = some 34 ∨ rest[0]? = none) :
    scanValue (pre ++ (t ++ rest)) pre.length = pre.length + t.length := by
  rw [scanValue_run _ t.length pre.length]
  · apply scanValue_stop
    have : (pre ++ (t ++ rest))[pre.length + t.length]? = rest[0]? := by
      rw [← List.append_assoc, ← List.length_append]
      exact getElem?_at (pre ++ t) rest
    rw [this]
    exact hr
  · intro x hx
    refine ⟨t[x], ?_, ?_, ?_⟩
    · rw [getElem?_mid pre t rest x hx]
      exact List.getElem?_eq_getElem hx
    · intro h
      exact h34 (h ▸ List.getElem_mem hx)
    · intro h
      exact h92 (h ▸ List.getElem_mem hx)

theorem TrimSuffix_of_not_mem (v : GoString) (h92 : 92 ∉ v) : TrimSuffix v [92, 34] = v := by
  unfold TrimSuffix
  rw [if_neg]
  intro h
  rw [List.isSuffixOf_iff_suffix] at h
  exact h92 (h.subset (by simp))

/-- One iteration of the outer loop on a well-formed segment: the entries of
the segment are appended and the scan resumes two bytes after the value. -/
theorem body_segment (pre k v rest : GoString) (tags : List fieldTag)
    (hk : k ≠ []) (hkc : 58 ∉ k) (hv : v ≠ []) (h34 : 34 ∉ v) (h92 : 92 ∉ v) :
    body (pre ++ (k ++ (58 :: 34 :: (v ++ (34 :: rest))))) pre.length pre.length tags
      = .next (pre.length + k.length + v.length + 4) (pre.length + k.length + v.length + 4)
          (tags ++ (Split 44 v).map (fun s => fieldTag.mk k s)) := by
  have hw : pre ++ (k ++ (58 :: 34 :: (v ++ (34 :: rest))))
      = (pre ++ (k ++ [58, 34])) ++ (v ++ (34 :: rest)) := by simp
  have hlen : (pre ++ (k ++ [58, 34])).length = pre.length + k.length + 1 + 1 := by
    simp; omega
  unfold body
  simp only
  rw [scanKey_mid pre k _ hkc (Or.inl (by simp)), slice_mid]
  simp only [hk, if_false]
  have hq : (pre ++ (k ++ (58 :: 34 :: (v ++ (34 :: rest)))))[pre.length + k.length + 1]?
      = some 34 := by
    rw [show pre ++ (k ++ (58 :: 34 :: (v ++ (34 :: rest))))
      = (pre ++ (k ++ [58])) ++ (34 :: (v ++ (34 :: rest))) by simp]
    rw [show pre.length + k.length + 1 = (pre ++ (k ++ [58])).length by simp; omega]
    rw [getElem?_at]
    simp
  rw [if_neg (by simp; omega), hq]
  simp only [Option.some.injEq, show (34 : Nat) ≠ 92 by decide, if_false]
  rw [hw, ← hlen, scanValue_mid _ v _ h34 h92 (Or.inl (by simp)), slice_mid]
  simp only [TrimSuffix_of_not_mem v h92, hv, if_false]
  rw [hlen]
  congr 1 <;> omega

/-! ## Lemmas on the outer loop -/

theorem scanKey_ge (w : GoString) (j : Nat) : j ≤ scanKey w j :=
  scanKeyLoop_ge w _ j

theorem scanValue_ge (w : GoString) (j : Nat) : j ≤ scanValue w j :=
  scanValueLoop_ge w _ j

/-- An iteration that reaches the end of the loop body leaves `i = j` and has
moved `j` forward. -/
theorem body_next (w : GoString) (i j i' j' : Nat) (tags tags' : List fieldTag)
    (h : body w i j tags = .next i' j' tags') : i' = j' ∧ j + 4 ≤ j' := by
  unfold body at h
  simp only at h
  have h1 := scanKey_ge w j
  generalize scanKey w j = a at h h1
  split at h
  · exact absurd h (by simp)
  · split at h
    · exact absurd h (by simp)
    · split at h
      · exact absurd h (by simp)
      · split at h
        · exact absurd h (by simp)
        · split at h
          · exact absurd h (by simp)
          · simp only [Step.next.injEq] at h
            obtain ⟨hi, hj, -⟩ := h
            by_cases hc : w[a + 1]? = some 92
            · simp only [hc, if_true] at hi hj
              have := scanValue_ge w (a + 1 + 1 + 1)
              omega
            · simp only [hc, if_false] at hi hj
              have := scanValue_ge w (a + 1 + 1)
              omega

/-- A `return` inside the loop body returns the entries accumulated so far. -/
theorem body_ret (w : GoString) (i j : Nat) (tags t : List fieldTag)
    (h : body w i j tags = .ret t) : t = tags := by
  unfold body at h
  simp only at h
  split at h
  · exact absurd h (by simp)
  · split at h
    · exact (Step.ret.inj h).symm
    · split at h
      · exact (Step.ret.inj h).symm
      · split at h
        · exact absurd h (by simp)
        · split at h
          · exact (Step.ret.inj h).symm
          · exact absurd h (by simp)

/-- Any bound on the iterations that covers the rest of the string gives the
outer loop the same outcome. -/
theorem loop_fuel (w : GoString) (f₁ f₂ i j : Nat) (tags : List fieldTag)
    (h₁ : w.length ≤ f₁ + j) (h₂ : w.length ≤ f₂ + j) :
    loop w f₁ i j tags = loop w f₂ i j tags := by
  induction f₁ generalizing f₂ i j tags with
  | zero =>
    cases f₂ <;> simp [loop, show ¬ j < w.length by omega]
  | succ n ih =>
    cases f₂ with
    | zero => simp [loop, show ¬ j < w.length by omega]
    | succ m =>
      simp only [loop]
      split
      · cases hb : body w i j tags with
        | ret t => rfl
        | panic => rfl
        | next i' j' t =>
          have := (body_next w i j i' j' tags t hb).2
          exact ih m i' j' t (by omega) (by omega)
      · rfl

theorem loop_done (w : GoString) (fuel i j : Nat) (tags : List fieldTag)
    (h : w.length ≤ j) : loop w fuel i j tags = .ok tags := by
  cases fuel <;> simp [loop, show ¬ j < w.length by omega]

theorem loop_ret (w : GoString) (fuel i j : Nat) (tags t : List fieldTag)
    (hf : w.length ≤ fuel + j) (hb : body w i j tags = .ret t) :
    loop w fuel i j tags = .ok t := by
  by_cases hj : j < w.length
  · obtain ⟨n, rfl⟩ : ∃ n, fuel = n + 1 := ⟨fuel - 1, by omega⟩
    simp [loop, hj, hb]
  · rw [body_ret w i j tags t hb]
    exact loop_done w fuel i j tags (by omega)

theorem loop_next (w : GoString) (fuel i j i' j' : Nat) (tags t : List fieldTag)
    (hf : w.length ≤ fuel + j) (hj : j < w.length)
    (hb : body w i j tags = .next i' j' t) :
    loop w fuel i j tags = loop w fuel i' j' t := by
  obtain ⟨n, rfl⟩ : ∃ n, fuel = n + 1 := ⟨fuel - 1, by omega⟩
  have := (body_next w i j i' j' tags t hb).2
  simp only [loop, hj, if_true, hb]
  exact loop_fuel w n (n + 1) i' j' t (by omega) (by omega)

/-- The outer loop across a run of well-formed segments joined by single
spaces and followed by at least one more byte: the entries of all the
segments are appended, in order, and the scan resumes one byte after the
closing quote of the last segment. -/
theorem loop_segments (segs : List (GoString × GoString)) (hne : segs ≠ [])
    (hwf : ∀ s ∈ segs, WellFormed s) (pre : GoString) (c : Nat) (tail : GoString)
    (tags : List fieldTag) (fuel : Nat)
    (hf : (pre ++ (Join (segs.map segment) [32] ++ c :: tail)).length ≤ fuel + pre.length) :
    loop (pre ++ (Join (segs.map segment) [32] ++ c :: tail)) fuel pre.length pre.length tags
      = loop (pre ++ (Join (segs.map segment) [32] ++ c :: tail)) fuel
          (pre.length + (Join (segs.map segment) [32]).length + 1)
          (pre.length + (Join (segs.map segment) [32]).length + 1)
          (tags ++ segs.flatMap segmentTags) := by
  induction segs generalizing pre tags with
  | nil => exact absurd rfl hne
  | cons s ss ih =>
    obtain ⟨hk, hkc, hv, h34, h92⟩ := hwf s (List.mem_cons_self _ _)
    cases ss with
    | nil =>
      have hw : pre ++ (Join ([s].map segment) [32] ++ c :: tail)
          = pre ++ (s.1 ++ (58 :: 34 :: (s.2 ++ (34 :: (c :: tail))))) := by
        simp [Join, segment]
      have hl : (Join ([s].map segment) [32]).length = s.1.length + s.2.length + 3 := by
        simp [Join, segment]; omega
      rw [hl]
      rw [hw] at hf ⊢
      rw [loop_next _ fuel _ _ _ _ tags _ hf (by simp)
        (body_segment pre s.1 s.2 (c :: tail) tags hk hkc hv h34 h92)]
      simp [segmentTags]
      congr 1 <;> omega
    | cons s' ss' =>
      have hw : pre ++ (Join ((s :: s' :: ss').map segment) [32] ++ c :: tail)
          = pre ++ (s.1 ++ (58 :: 34 :: (s.2 ++ (34 ::
              (32 :: (Join ((s' :: ss').map segment) [32] ++ c :: tail)))))) := by
        simp [Join, segment]
      have hw' : pre ++ (Join ((s :: s' :: ss').map segment) [32] ++ c :: tail)
          = (pre ++ (segment s ++ [32])) ++ (Join ((s' :: ss').map segment) [32] ++ c :: tail) := by
        simp [Join, segment]
      have hl : (pre ++ (segment s ++ [32])).length = pre.length + s.1.length + s.2.length + 4 := by
        simp [segment]; omega
      have hl2 : (Join ((s :: s' :: ss').map segment) [32]).length
          = s.1.length + s.2.length + 4 + (Join ((s' :: ss').map segment) [32]).length := by
        simp [Join, segment]; omega
      have hstep := loop_next _ fuel _ _ _ _ tags _ (hw ▸ hf) (by simp)
        (body_segment pre s.1 s.2 (32 :: (Join ((s' :: ss').map segment) [32] ++ c :: tail))
          tags hk hkc hv h34 h92)
      rw [← hw] at hstep
      rw [hstep, hl2, ← hl]
      have hih := ih (by simp) (fun x hx => hwf x (List.mem_cons_of_mem _ hx))
        (pre ++ (segment s ++ [32])) (tags ++ segmentTags s) (by rw [← hw']; omega)
      rw [← hw'] at hih
      simp only [segmentTags] at hih ⊢
      rw [hih]
      simp only [List.flatMap_cons, List.append_assoc]
      congr 1 <;> omega

theorem loop_ne_fuel (w : GoString) (fuel i j : Nat) (tags : List fieldTag)
    (hf : w.length ≤ fuel + j) : loop w fuel i j tags ≠ .fuel := by
  induction fuel generalizing i j tags with
  | zero => simp [loop, show ¬ j < w.length by omega]
  | succ n ih =>
    simp only [loop]
    split
    · cases hb : body w i j tags with
      | ret t => simp
      | panic => simp
      | next i' j' t =>
        have := (body_next w i j i' j' tags t hb).2
        exact ih i' j' t (by omega)
    · simp

/-- The bound `len(wholeTag)` on the iterations of the outer loop is never
hit: `extractTags` terminates on every literal. -/
theorem parseTag_ne_fuel (w : GoString) : parseTag w ≠ .fuel :=
  loop_ne_fuel w w.length 1 1 [] (by omega)

theorem slice_empty (w : GoString) (a : Nat) (h : a ≤ w.length) : slice w a a = some [] := by
  simp [slice, h]

/-- A stretch without `':'` up to the end of the literal: the loop body
returns the entries accumulated so far. -/
theorem body_no_colon (pre t : GoString) (ht : 58 ∉ t) (tags : List fieldTag) :
    body (pre ++ t) pre.length pre.length tags = .ret tags := by
  have hs := scanKey_mid pre t [] ht (Or.inr (by simp))
  have hsl := slice_mid pre t []
  simp only [List.append_nil] at hs hsl
  unfold body
  simp only [hs, hsl]
  by_cases h : t = []
  · simp [h]
  · simp [h]

/-- A segment with the empty value `key:""`: the loop body returns the
entries accumulated so far, whatever follows. -/
theorem body_empty_value (pre k rest : GoString) (tags : List fieldTag)
    (hk : k ≠ []) (hkc : 58 ∉ k) :
    body (pre ++ (k ++ (58 :: 34 :: 34 :: rest))) pre.length pre.length tags = .ret tags := by
  have hq : (pre ++ (k ++ (58 :: 34 :: 34 :: rest)))[pre.length + k.length + 1]? = some 34 := by
    rw [show pre ++ (k ++ (58 :: 34 :: 34 :: rest))
      = (pre ++ (k ++ [58])) ++ (34 :: 34 :: rest) by simp]
    rw [show pre.length + k.length + 1 = (pre ++ (k ++ [58])).length by simp; omega]
    rw [getElem?_at]
    simp
  have hq2 : (pre ++ (k ++ (58 :: 34 :: 34 :: rest)))[pre.length + k.length + 1 + 1]? = some 34 := by
    rw [show pre ++ (k ++ (58 :: 34 :: 34 :: rest))
      = (pre ++ (k ++ [58, 34])) ++ (34 :: rest) by simp]
    rw [show pre.length + k.length + 1 + 1 = (pre ++ (k ++ [58, 34])).length by simp; omega]
    rw [getElem?_at]
    simp
  unfold body
  simp only
  rw [scanKey_mid pre k _ hkc (Or.inl (by simp)), slice_mid]
  simp only [hk, if_false]
  rw [if_neg (by simp; omega), hq]
  simp only [Option.some.injEq, show (34 : Nat) ≠ 92 by decide, if_false]
  rw [scanValue_stop _ _ (Or.inl hq2), slice_empty _ _ (by simp; omega)]
  simp [TrimSuffix]

theorem Join_append_singleton (xs : List GoString) (t sep : GoString) (h : xs ≠ []) :
    Join (xs ++ [t]) sep = Join xs sep ++ (sep ++ t) := by
  induction xs with
  | nil => exact absurd rfl h
  | cons a as ih =>
    cases as with
    | nil => simp [Join]
    | cons b bs =>
      have := ih (by simp)
      simp only [List.cons_append] at this ⊢
      simp only [Join, this, List.append_assoc]

/-- The parse of a backtick-delimited literal made of well-formed segments
followed by a last stretch of text on which the loop body returns: exactly
the entries of the well-formed segments. -/
theorem parseTag_segments_then (segs : List (GoString × GoString))
    (hwf : ∀ s ∈ segs, WellFormed s) (last : GoString)
    (hlast : ∀ (pre : GoString) (tags : List fieldTag),
      body (pre ++ (last ++ [96])) pre.length pre.length tags = .ret tags) :
    parseTag (backquoted (Join (segs.map segment ++ [last]) [32]))
      = .ok (segs.flatMap segmentTags) := by
  unfold parseTag backquoted
  by_cases hne : segs = []
  · subst hne
    have := hlast [96] []
    simp only [List.map_nil, List.nil_append, Join, List.flatMap_nil]
    exact loop_ret _ _ 1 1 [] [] (by simp) (by simpa using this)
  · have hm : segs.map segment ≠ [] := by simpa using hne
    rw [Join_append_singleton _ _ _ hm]
    have hw : 96 :: ((Join (segs.map segment) [32] ++ ([32] ++ last)) ++ [96])
        = [96] ++ (Join (segs.map segment) [32] ++ 32 :: (last ++ [96])) := by simp
    have hw2 : [96] ++ (Join (segs.map segment) [32] ++ 32 :: (last ++ [96]))
        = ([96] ++ (Join (segs.map segment) [32] ++ [32])) ++ (last ++ [96]) := by simp
    rw [hw]
    have h1 := loop_segments segs hne hwf [96] 32 (last ++ [96]) []
      ([96] ++ (Join (segs.map segment) [32] ++ 32 :: (last ++ [96]))).length (by simp)
    simp only [List.length_singleton, List.nil_append] at h1
    rw [h1]
    have h2 := hlast ([96] ++ (Join (segs.map segment) [32] ++ [32])) (segs.flatMap segmentTags)
    rw [← hw2] at h2
    have hl : ([96] ++ (Join (segs.map segment) [32] ++ [32])).length
        = 1 + (Join (segs.map segment) [32]).length + 1 := by simp; omega
    rw [hl] at h2
    exact loop_ret _ _ _ _ _ _ (by simp) h2

/-- The parse of a backtick-delimited literal made of one or more
well-formed segments: the entries of the segments, in order. -/
theorem parseTag_segments (segs : List (GoString × GoString)) (hne : segs ≠ [])
    (hwf : ∀ s ∈ segs, WellFormed s) :
    parseTag (backquoted (Join (segs.map segment) [32])) = .ok (segs.flatMap segmentTags) := by
  unfold parseTag backquoted
  have hw : 96 :: (Join (segs.map segment) [32] ++ [96])
      = [96] ++ (Join (segs.map segment) [32] ++ 96 :: []) := by simp
  rw [hw]
  have h1 := loop_segments segs hne hwf [96] 96 [] []
    ([96] ++ (Join (segs.map segment) [32] ++ 96 :: [])).length (by simp)
  simp only [List.length_singleton, List.nil_append] at h1
  rw [h1]
  exact loop_done _ _ _ _ _ (by simp; omega)

/-! ## Absence of panics on literals that do not end in a backslash -/

theorem backslash_not_last (w : GoString) (j : Nat) (hl : w.getLast? ≠ some 92)
    (h : w[j]? = some 92) : j + 1 < w.length := by
  have hj : j < w.length := (List.getElem?_eq_some.mp h).1
  by_contra hc
  have hj' : j = w.length - 1 := by omega
  apply hl
  rw [List.getLast?_eq_getElem?, ← hj']
  exact h

theorem scanValueLoop_le (w : GoString) (fuel j : Nat) (hl : w.getLast? ≠ some 92)
    (h : j ≤ w.length) : scanValueLoop w fuel j ≤ w.length := by
  induction fuel generalizing j with
  | zero => simpa [scanValueLoop] using h
  | succ n ih =>
    simp only [scanValueLoop]
    split
    · rename_i b hb
      have hj : j < w.length := (List.getElem?_eq_some.mp hb).1
      split
      · split
        · rename_i h92
          have := backslash_not_last w j hl (h92 ▸ hb)
          exact ih (j + 1 + 1) (by omega)
        · exact ih (j + 1) hj
      · exact h
    · exact h

theorem body_ne_panic (w : GoString) (i j : Nat) (tags : List fieldTag)
    (hl : w.getLast? ≠ some 92) (hij : i ≤ j) (hj : j ≤ w.length) :
    body w i j tags ≠ .panic := by
  have h1 := scanKey_ge w j
  have h2 : scanKey w j ≤ w.length := scanKeyLoop_le w _ j hj
  unfold body
  simp only
  generalize scanKey w j = a at h1 h2
  have hs1 : slice w i a = some ((w.drop i).take (a - i)) := by
    simp [slice, show i ≤ a by omega, h2]
  rw [hs1]
  simp only
  split
  · simp
  · split
    · simp
    · rename_i hlt
      have hlt : a + 1 < w.length := by omega
      have hi2 : (if w[a + 1]? = some 92 then a + 1 + 1 else a + 1) + 1 ≤ w.length := by
        split
        · rename_i h92
          have := backslash_not_last w (a + 1) hl h92
          omega
        · omega
      generalize (if w[a + 1]? = some 92 then a + 1 + 1 else a + 1) + 1 = i2 at hi2
      have h3 := scanValue_ge w i2
      have h4 : scanValue w i2 ≤ w.length := scanValueLoop_le w _ i2 hl hi2
      have hs2 : slice w i2 (scanValue w i2)
          = some ((w.drop i2).take (scanValue w i2 - i2)) := by
        simp [slice, h3, h4]
      rw [hs2]
      simp only
      split <;> simp

/-- On a literal that is empty or does not end in a backslash the outer loop
returns entries: no slice is out of bounds and the bound on the iterations
is not hit. -/
theorem loop_ok (w : GoString) (hl : w.getLast? ≠ some 92) (fuel i j : Nat)
    (tags : List fieldTag) (hij : i ≤ j) (hf : w.length ≤ fuel + j) :
    ∃ t, loop w fuel i j tags = .ok t := by
  induction fuel generalizing i j tags with
  | zero => exact ⟨tags, by simp [loop, show ¬ j < w.length by omega]⟩
  | succ n ih =>
    simp only [loop]
    split
    · rename_i hj
      cases hb : body w i j tags with
      | ret t => exact ⟨t, rfl⟩
      | panic => exact absurd hb (body_ne_panic w i j tags hl hij (by omega))
      | next i' j' t =>
        have := body_next w i j i' j' tags t hb
        exact ih i' j' t (by omega) (by omega)
    · exact ⟨tags, rfl⟩

theorem parseTag_ok (w : GoString) (hl : w.getLast? ≠ some 92) : ∃ t, parseTag w = .ok t :=
  loop_ok w hl w.length 1 1 [] (Nat.le_refl 1) (by omega)

theorem Split_ne_nil (sep : Nat) (v : GoString) : Split sep v ≠ [] := by
  induction v with
  | nil => simp [Split]
  | cons b bs ih =>
    simp only [Split]
    split
    · simp
    · split <;> simp

theorem segmentTags_ne_nil (segs : List (GoString × GoString)) (hne : segs ≠ []) :
    segs.flatMap segmentTags ≠ [] := by
  cases segs with
  | nil => exact absurd rfl hne
  | cons s ss =>
    simp only [List.flatMap_cons, segmentTags]
    intro h
    have := (List.append_eq_nil.mp h).1
    exact Split_ne_nil 44 s.2 (List.map_eq_nil_iff.mp this)

/-- A literal without `':'` after its first byte parses to no entry. -/
theorem parseTag_no_colon (w : GoString) (h : 58 ∉ w.drop 1) : parseTag w = .ok [] := by
  unfold parseTag
  cases w with
  | nil => exact loop_done _ _ _ _ _ (by simp)
  | cons c t =>
    have hb := body_no_colon [c] t (by simpa using h) []
    exact loop_ret _ _ 1 1 [] [] (by simp) (by simpa using hb)

/-! ## The claims on `extractTags` -/

/-- C1: on the backtick-delimited literal made of one or more well-formed
segments `key:"value"` separated by single spaces, `extractTags` returns, in
order, for each segment the entries (key, s) for s in the comma-split of the
segment's value. -/
theorem extractTags_segments (field : Field) (segs : List (GoString × GoString))
    (hne : segs ≠ []) (hwf : ∀ s ∈ segs, WellFormed s)
    (htag : field.Tag = some ⟨backquoted (Join (segs.map segment) [32])⟩) :
    extractTags field
      = .ok (segs.flatMap fun kv => (Split 44 kv.2).map fun s => fieldTag.mk kv.1 s) := by
  unfold extractTags
  rw [htag]
  exact parseTag_segments segs hne hwf

theorem extractTags_segments_witness :
    (∀ s ∈ [(ascii "json", ascii "name,omitempty"), (ascii "levee", ascii "source")],
        WellFormed s)
    ∧ extractTags ⟨[⟨7, ascii "Name"⟩], 12,
        some ⟨ascii "`json:\"name,omitempty\" levee:\"source\"`"⟩⟩
      = .ok [⟨ascii "json", ascii "name"⟩, ⟨ascii "json", ascii "omitempty"⟩,
          ⟨ascii "levee", ascii "source"⟩] :=
  ⟨by decide,
    extractTags_segments _
      [(ascii "json", ascii "name,omitempty"), (ascii "levee", ascii "source")]
      (by decide) (by decide) (by decide)⟩

/-- C2: on the backtick-delimited literal whose single segment is
`k:"v"`, with `k` non-empty without `':'` and `v` non-empty without `'"'`
and backslash, `extractTags` returns one entry per element of the
comma-split of `v`, in order, all with key `k`; the literal with content
`key:"a,b,c"` yields (key,a), (key,b), (key,c). -/
theorem extractTags_single_segment (field : Field) (k v : GoString)
    (hk : k ≠ []) (hkc : 58 ∉ k) (hv : v ≠ []) (h34 : 34 ∉ v) (h92 : 92 ∉ v)
    (htag : field.Tag = some ⟨backquoted (k ++ ascii ":\"" ++ v ++ ascii "\"")⟩) :
    extractTags field = .ok ((Split 44 v).map fun s => fieldTag.mk k s)
    ∧ extractTags ⟨[], 0, some ⟨ascii "`key:\"a,b,c\"`"⟩⟩
      = .ok [⟨ascii "key", ascii "a"⟩, ⟨ascii "key", ascii "b"⟩, ⟨ascii "key", ascii "c"⟩] := by
  refine ⟨?_, by decide⟩
  unfold extractTags
  rw [htag]
  have h := parseTag_segments [(k, v)] (by simp) (by
    intro s hs
    rw [List.mem_singleton] at hs
    subst hs
    exact ⟨hk, hkc, hv, h34, h92⟩)
  have he : backquoted (k ++ ascii ":\"" ++ v ++ ascii "\"")
      = backquoted (Join ([(k, v)].map segment) [32]) := by
    simp [Join, segment, ascii]
  rw [he]
  show parseTag (backquoted (Join ([(k, v)].map segment) [32])) = _
  rw [h]
  simp [segmentTags]

theorem extractTags_single_segment_witness :
    extractTags ⟨[], 0, some ⟨ascii "`levee:\"source\"`"⟩⟩
      = .ok [⟨ascii "levee", ascii "source"⟩] :=
  (extractTags_single_segment ⟨[], 0, some ⟨ascii "`levee:\"source\"`"⟩⟩
    (ascii "levee") (ascii "source")
    (by decide) (by decide) (by decide) (by decide) (by decide) (by decide)).1

/-- C3: partial result on a malformed later segment.  On the
backtick-delimited literal made of one or more well-formed segments followed
by a space and a trailing text without `':'`, `extractTags` returns exactly
the entries of the well-formed segments, which is not the empty sequence; the
literal with content `k1:"v1" k2` yields (k1,v1). -/
theorem extractTags_partial_result (field : Field) (segs : List (GoString × GoString))
    (t : GoString) (hne : segs ≠ []) (hwf : ∀ s ∈ segs, WellFormed s) (ht : 58 ∉ t)
    (htag : field.Tag = some ⟨backquoted (Join (segs.map segment ++ [t]) [32])⟩) :
    extractTags field
      = .ok (segs.flatMap fun kv => (Split 44 kv.2).map fun s => fieldTag.mk kv.1 s)
    ∧ (segs.flatMap fun kv => (Split 44 kv.2).map fun s => fieldTag.mk kv.1 s) ≠ []
    ∧ extractTags ⟨[], 0, some ⟨ascii "`k1:\"v1\" k2`"⟩⟩ = .ok [⟨ascii "k1", ascii "v1"⟩] := by
  refine ⟨?_, segmentTags_ne_nil segs hne, by decide⟩
  unfold extractTags
  rw [htag]
  exact parseTag_segments_then segs hwf t fun pre tags =>
    body_no_colon pre (t ++ [96]) (by simp [ht]) tags

theorem extractTags_partial_result_witness :
    extractTags ⟨[], 0, some ⟨ascii "`json:\"a,b\" levee:\"source\" broken`"⟩⟩
      = .ok [⟨ascii "json", ascii "a"⟩, ⟨ascii "json", ascii "b"⟩,
          ⟨ascii "levee", ascii "source"⟩] :=
  (extractTags_partial_result _
    [(ascii "json", ascii "a,b"), (ascii "levee", ascii "source")] (ascii "broken")
    (by decide) (by decide) (by decide) (by decide)).1

/-- C7: nothing to parse yields nothing.  `extractTags` returns the empty
sequence for a field with no tag literal, and for every literal that
contains no `':'` after its first byte (the empty literal and the literal
with content `key"val"` included); a field without a tag literal is never
recorded as tagged, whatever the predicate: the scan of the field leaves the
registry and the diagnostics as they are. -/
theorem extractTags_nothing_to_parse (field : Field) :
    (field.Tag = none → extractTags field = .ok [])
    ∧ (∀ w : GoString, field.Tag = some ⟨w⟩ → 58 ∉ w.drop 1 → extractTags field = .ok [])
    ∧ (field.Tag = none →
        ∀ (conf : Config) (pass : Pass) (st : ScanState), scanField conf pass st field = .ok st)
    ∧ extractTags ⟨[], 0, some ⟨ascii ""⟩⟩ = .ok []
    ∧ extractTags ⟨[], 0, some ⟨ascii "`key\"val\"`"⟩⟩ = .ok []
    ∧ extractTags ⟨[], 0, some ⟨ascii "key\"val\""⟩⟩ = .ok [] := by
  refine ⟨?_, ?_, ?_, by decide, by decide, by decide⟩
  · intro h
    simp [extractTags, h]
  · intro w hw hc
    simp only [extractTags, hw]
    exact parseTag_no_colon w hc
  · intro h conf pass st
    simp [scanField, extractTags, h, isTaggedField]

theorem extractTags_nothing_to_parse_witness :
    extractTags ⟨[⟨3, ascii "ID"⟩], 6, some ⟨ascii "`no colon here`"⟩⟩ = .ok []
    ∧ scanField ⟨fun _ _ => true⟩ ⟨[], fun ident => ident.NamePos⟩ ([], [])
        ⟨[⟨3, ascii "ID"⟩], 6, none⟩ = .ok ([], []) :=
  ⟨(extractTags_nothing_to_parse ⟨[⟨3, ascii "ID"⟩], 6, some ⟨ascii "`no colon here`"⟩⟩).2.1
      (ascii "`no colon here`") rfl (by decide),
    (extractTags_nothing_to_parse ⟨[⟨3, ascii "ID"⟩], 6, none⟩).2.2.1 rfl
      ⟨fun _ _ => true⟩ ⟨[], fun ident => ident.NamePos⟩ ([], [])⟩

/-- C8: an empty value stops the parse.  On the backtick-delimited literal
made of a (possibly empty) sequence of well-formed segments, then a segment
`k:""` with `k` non-empty without `':'`, then any remainder `r`,
`extractTags` returns exactly the entries of the well-formed segments. -/
theorem extractTags_empty_value (field : Field) (segs : List (GoString × GoString))
    (k r : GoString) (hwf : ∀ s ∈ segs, WellFormed s) (hk : k ≠ []) (hkc : 58 ∉ k)
    (htag : field.Tag
      = some ⟨backquoted (Join (segs.map segment ++ [k ++ ascii ":\"\"" ++ r]) [32])⟩) :
    extractTags field
      = .ok (segs.flatMap fun kv => (Split 44 kv.2).map fun s => fieldTag.mk kv.1 s) := by
  unfold extractTags
  rw [htag]
  refine parseTag_segments_then segs hwf _ fun pre tags => ?_
  have hw : pre ++ ((k ++ ascii ":\"\"" ++ r) ++ [96])
      = pre ++ (k ++ (58 :: 34 :: 34 :: (r ++ [96]))) := by
    simp [ascii]
  rw [hw]
  exact body_empty_value pre k (r ++ [96]) tags hk hkc

theorem extractTags_empty_value_witness :
    extractTags ⟨[], 0, some ⟨ascii "`json:\"a,b\" levee:\"\" other:\"x\"`"⟩⟩
      = .ok [⟨ascii "json", ascii "a"⟩, ⟨ascii "json", ascii "b"⟩]
    ∧ extractTags ⟨[], 0, some ⟨ascii "`levee:\"\"`"⟩⟩ = .ok [] :=
  ⟨extractTags_empty_value _ [(ascii "json", ascii "a,b")] (ascii "levee")
      (ascii " other:\"x\"") (by decide) (by decide) (by decide) (by decide),
    extractTags_empty_value _ [] (ascii "levee") [] (by decide) (by decide) (by decide)
      (by decide)⟩

/-- Outside the string literals: on the string made of a backtick and `k:"a`
followed by a backslash, with no closing delimiter, the value scan moves `j`
to `len(wholeTag) + 1` and the slice `wholeTag[i:j]` panics. -/
theorem extractTags_dangling_backslash_panics :
    extractTags ⟨[], 0, some ⟨ascii "`k:\"a\\"⟩⟩ = .panic := by
  decide

/-- On every string that is empty or does not end in a backslash, and on a
field without a tag literal, `extractTags` returns a (possibly partial)
sequence of entries: no slice is out of bounds. -/
theorem extractTags_returns (field : Field)
    (h : ∀ w : GoString, field.Tag = some ⟨w⟩ → w.getLast? ≠ some 92) :
    ∃ tags, extractTags field = .ok tags := by
  unfold extractTags
  cases hf : field.Tag with
  | none => exact ⟨[], rfl⟩
  | some lit => exact parseTag_ok lit.Value (h lit.Value hf)

theorem extractTags_returns_witness :
    ∃ tags, extractTags ⟨[], 0, some ⟨ascii "`k1:\"v1\" k2:\\\"x\\\\\" :`"⟩⟩ = .ok tags :=
  extractTags_returns _ fun w hw => by
    cases hw
    decide

/-! ## Lemmas on the scan of the declarations -/

theorem isTaggedField_foldl (conf : Config) (tags : List fieldTag) (b : Bool) :
    tags.foldl (fun tagged ft => if conf.IsSourceFieldTag ft.key ft.val then true else tagged) b
      = (b || tags.any fun ft => conf.IsSourceFieldTag ft.key ft.val) := by
  induction tags generalizing b with
  | nil => simp
  | cons t ts ih =>
    simp only [List.foldl_cons, List.any_cons, ih]
    cases conf.IsSourceFieldTag t.key t.val <;> cases b <;> simp

theorem isTaggedField_eq_any (conf : Config) (tags : List fieldTag) :
    isTaggedField conf tags = tags.any fun ft => conf.IsSourceFieldTag ft.key ft.val := by
  unfold isTaggedField
  rw [isTaggedField_foldl]
  simp

/-- The effect of the scan of one field, by the outcome of `extractTags`. -/
theorem scanField_eq (conf : Config) (pass : Pass) (st : ScanState) (f : Field) :
    scanField conf pass st f
      = (extractTags f).andThen fun _ =>
          .ok (if isRecorded conf f
            then (recordNames pass f.Names st.1, st.2 ++ [taggedFieldDiagnostic f])
            else st) := by
  unfold scanField isRecorded hasSourceTag Outcome.andThen
  cases he : extractTags f with
  | panic => rfl
  | fuel => rfl
  | ok tags =>
    simp only [isTaggedField_eq_any]
    by_cases hany : (tags.any fun ft => conf.IsSourceFieldTag ft.key ft.val) = true
    · cases hn : f.Names with
      | nil => simp [hany]
      | cons a as => simp [taggedFieldDiagnostic, hn, hany]
    · simp [hany]

theorem recordNames_append (pass : Pass) (a b : List Ident) (m : ResultType) :
    recordNames pass (a ++ b) m = recordNames pass b (recordNames pass a m) := by
  simp [recordNames, List.foldl_append]

/-- The names of the recorded fields among `fs`, in order. -/
theorem scanFields_ok (conf : Config) (pass : Pass) (fs : List Field) (st st' : ScanState)
    (h : scanFields conf pass fs st = .ok st') :
    st'.1 = recordNames pass ((fs.filter (isRecorded conf)).flatMap fun f => f.Names) st.1
    ∧ st'.2 = st.2 ++ (fs.filter (isRecorded conf)).map taggedFieldDiagnostic := by
  induction fs generalizing st with
  | nil =>
    simp only [scanFields, Outcome.ok.injEq] at h
    subst h
    simp [recordNames]
  | cons f fs ih =>
    simp only [scanFields, scanField_eq] at h
    cases he : extractTags f with
    | panic => simp [he, Outcome.andThen] at h
    | fuel => simp [he, Outcome.andThen] at h
    | ok tags =>
      simp only [he, Outcome.andThen] at h
      have := ih _ h
      by_cases hr : isRecorded conf f = true
      · simp only [hr, if_true] at this
        simp only [List.filter_cons, hr, if_true, List.flatMap_cons, List.map_cons,
          recordNames_append]
        simpa using this
      · simp only [hr] at this
        simp only [List.filter_cons, hr]
        simpa using this

theorem scanFields_returns (conf : Config) (pass : Pass) (fs : List Field) (st : ScanState)
    (h : ∀ f ∈ fs, ∃ tags, extractTags f = .ok tags) :
    ∃ st', scanFields conf pass fs st = .ok st' := by
  induction fs generalizing st with
  | nil => exact ⟨st, rfl⟩
  | cons f fs ih =>
    obtain ⟨tags, he⟩ := h f (List.mem_cons_self _ _)
    simp only [scanFields, scanField_eq, he, Outcome.andThen]
    exact ih _ fun g hg => h g (List.mem_cons_of_mem _ hg)

theorem visit_eq (conf : Config) (pass : Pass) (st : ScanState) (t : TypeSpec) :
    visit conf pass st t = scanFields conf pass (declaredFields t) st := by
  unfold visit declaredFields
  cases t.Type_ with
  | Other => rfl
  | StructType fields =>
    cases fields with
    | none => rfl
    | some fs => rfl

theorem preorder_ok (conf : Config) (pass : Pass) (ts : List TypeSpec) (st st' : ScanState)
    (h : preorder conf pass ts st = .ok st') :
    st'.1 = recordNames pass
        (((ts.flatMap declaredFields).filter (isRecorded conf)).flatMap fun f => f.Names) st.1
    ∧ st'.2 = st.2 ++ ((ts.flatMap declaredFields).filter (isRecorded conf)).map
        taggedFieldDiagnostic := by
  induction ts generalizing st with
  | nil =>
    simp only [preorder, Outcome.ok.injEq] at h
    subst h
    simp [recordNames]
  | cons t ts ih =>
    simp only [preorder, visit_eq] at h
    cases hv : scanFields conf pass (declaredFields t) st with
    | panic => simp [hv] at h
    | fuel => simp [hv] at h
    | ok st1 =>
      simp only [hv] at h
      obtain ⟨h1, h2⟩ := scanFields_ok conf pass _ st st1 hv
      obtain ⟨h3, h4⟩ := ih st1 h
      simp only [List.flatMap_cons, List.filter_append, List.flatMap_append, List.map_append,
        recordNames_append]
      rw [h3, h4, h1, h2]
      simp

theorem preorder_returns (conf : Config) (pass : Pass) (ts : List TypeSpec) (st : ScanState)
    (h : ∀ f ∈ ts.flatMap declaredFields, ∃ tags, extractTags f = .ok tags) :
    ∃ st', preorder conf pass ts st = .ok st' := by
  induction ts generalizing st with
  | nil => exact ⟨st, rfl⟩
  | cons t ts ih =>
    simp only [List.flatMap_cons, List.mem_append] at h
    obtain ⟨st1, h1⟩ := scanFields_returns conf pass (declaredFields t) st
      fun f hf => h f (Or.inl hf)
    simp only [preorder, visit_eq, h1]
    exact ih st1 fun f hf => h f (Or.inr hf)

/-- The registry and the diagnostics of a scan that returns. -/
theorem run_ok (conf : Config) (pass : Pass) (r : ResultType) (diags : List Diagnostic)
    (h : run (some conf) pass = .ok r diags) :
    r = recordNames pass
        (((structFields pass).filter (isRecorded conf)).flatMap fun f => f.Names) []
    ∧ diags = ((structFields pass).filter (isRecorded conf)).map taggedFieldDiagnostic := by
  unfold run at h
  simp only at h
  cases hp : preorder conf pass pass.TypeSpecs ([], []) with
  | panic => simp [hp] at h
  | fuel => simp [hp] at h
  | ok st =>
    simp only [hp, RunResult.ok.injEq] at h
    obtain ⟨h1, h2⟩ := preorder_ok conf pass _ _ st hp
    rw [← h.1, ← h.2, h1, h2]
    simp [structFields]

theorem lookup_recordNames (pass : Pass) (names : List Ident) (m : ResultType) (id : Object) :
    (recordNames pass names m).lookup id
      = if id ∈ names.map pass.ObjectOf then some true else m.lookup id := by
  induction names generalizing m with
  | nil => simp [recordNames]
  | cons a as ih =>
    have : recordNames pass (a :: as) m = recordNames pass as ((pass.ObjectOf a, true) :: m) := rfl
    rw [this, ih]
    by_cases h1 : id ∈ as.map pass.ObjectOf
    · simp [h1]
    · by_cases h2 : id = pass.ObjectOf a
      · simp [h1, h2, List.lookup]
      · have h3 : (id == pass.ObjectOf a) = false := by simpa using h2
        simp [h1, h2, List.lookup, h3]

theorem hasSourceTag_iff (conf : Config) (f : Field) :
    hasSourceTag conf f = true ↔
      ∃ lit, f.Tag = some lit ∧ ∃ tags, extractTags f = .ok tags
        ∧ ∃ ft ∈ tags, conf.IsSourceFieldTag ft.key ft.val = true := by
  unfold hasSourceTag
  constructor
  · intro h
    cases hf : f.Tag with
    | none => simp [extractTags, hf] at h
    | some lit =>
      refine ⟨lit, rfl, ?_⟩
      cases he : extractTags f with
      | panic => simp [he] at h
      | fuel => simp [he] at h
      | ok tags =>
        simp only [he, List.any_eq_true] at h
        exact ⟨tags, rfl, h⟩
  · rintro ⟨lit, -, tags, he, ft, hft, hp⟩
    simp only [he, List.any_eq_true]
    exact ⟨ft, hft, hp⟩

theorem taggedIdentity_iff (conf : Config) (pass : Pass) (id : Object) :
    TaggedIdentity conf pass id ↔
      id ∈ (((structFields pass).filter (isRecorded conf)).flatMap fun f => f.Names).map
        pass.ObjectOf := by
  unfold TaggedIdentity
  simp only [List.mem_map, List.mem_flatMap, List.mem_filter]
  constructor
  · rintro ⟨f, hf, ident, hi, ho, hrest⟩
    refine ⟨ident, ⟨f, ⟨hf, ?_⟩, hi⟩, ho⟩
    unfold isRecorded
    rw [(hasSourceTag_iff conf f).mpr hrest]
    cases hn : f.Names with
    | nil => simp [hn] at hi
    | cons a as => simp
  · rintro ⟨ident, ⟨f, ⟨hf, hr⟩, hi⟩, ho⟩
    refine ⟨f, hf, ident, hi, ho, ?_⟩
    unfold isRecorded at hr
    simp only [Bool.and_eq_true] at hr
    exact (hasSourceTag_iff conf f).mp hr.1

/-! ## Lemmas on the insertion of a field without names -/

theorem scanFields_objectOf (conf : Config) (ts₁ ts₂ : List TypeSpec) (o : Ident → Object)
    (fs : List Field) (st : ScanState) :
    scanFields conf ⟨ts₁, o⟩ fs st = scanFields conf ⟨ts₂, o⟩ fs st := by
  induction fs generalizing st with
  | nil => rfl
  | cons f fs ih =>
    have hf : scanField conf ⟨ts₁, o⟩ st f = scanField conf ⟨ts₂, o⟩ st f := rfl
    simp only [scanFields, hf]
    cases scanField conf ⟨ts₂, o⟩ st f with
    | ok st1 => exact ih st1
    | panic => rfl
    | fuel => rfl

theorem preorder_objectOf (conf : Config) (ts₁ ts₂ : List TypeSpec) (o : Ident → Object)
    (ts : List TypeSpec) (st : ScanState) :
    preorder conf ⟨ts₁, o⟩ ts st = preorder conf ⟨ts₂, o⟩ ts st := by
  induction ts generalizing st with
  | nil => rfl
  | cons t ts ih =>
    simp only [preorder, visit_eq, scanFields_objectOf conf ts₁ ts₂ o]
    cases scanFields conf ⟨ts₂, o⟩ (declaredFields t) st with
    | ok st1 => exact ih st1
    | panic => rfl
    | fuel => rfl

theorem scanField_anonymous (conf : Config) (pass : Pass) (st : ScanState) (f : Field)
    (tags : List fieldTag) (hn : f.Names = []) (he : extractTags f = .ok tags) :
    scanField conf pass st f = .ok st := by
  rw [scanField_eq, he]
  simp [Outcome.andThen, isRecorded, hn]

theorem scanField_ok_extractTags (conf : Config) (pass : Pass) (st st' : ScanState) (f : Field)
    (h : scanField conf pass st f = .ok st') : ∃ tags, extractTags f = .ok tags := by
  rw [scanField_eq] at h
  cases he : extractTags f with
  | ok tags => exact ⟨tags, rfl⟩
  | panic => simp [he, Outcome.andThen] at h
  | fuel => simp [he, Outcome.andThen] at h

theorem scanFields_insert (conf : Config) (pass : Pass) (fs₁ fs₂ : List Field) (f : Field)
    (st : ScanState) (tags : List fieldTag) (hn : f.Names = [])
    (he : extractTags f = .ok tags) :
    scanFields conf pass (fs₁ ++ f :: fs₂) st = scanFields conf pass (fs₁ ++ fs₂) st := by
  induction fs₁ generalizing st with
  | nil => simp [scanFields, scanField_anonymous conf pass st f tags hn he]
  | cons g gs ih =>
    simp only [List.cons_append, scanFields]
    cases scanField conf pass st g with
    | ok st1 => exact ih st1
    | panic => rfl
    | fuel => rfl

theorem scanFields_insert_ok (conf : Config) (pass : Pass) (fs₁ fs₂ : List Field) (f : Field)
    (st st' : ScanState) (h : scanFields conf pass (fs₁ ++ f :: fs₂) st = .ok st') :
    ∃ tags, extractTags f = .ok tags := by
  induction fs₁ generalizing st with
  | nil =>
    simp only [List.nil_append, scanFields] at h
    cases hf : scanField conf pass st f with
    | ok st1 => exact scanField_ok_extractTags conf pass st st1 f hf
    | panic => simp [hf] at h
    | fuel => simp [hf] at h
  | cons g gs ih =>
    simp only [List.cons_append, scanFields] at h
    cases hg : scanField conf pass st g with
    | ok st1 =>
      simp only [hg] at h
      exact ih st1 h
    | panic => simp [hg] at h
    | fuel => simp [hg] at h

theorem preorder_congr (conf : Config) (pass : Pass) (pre post : List TypeSpec)
    (t t' : TypeSpec) (st : ScanState)
    (h : ∀ st, visit conf pass st t = visit conf pass st t') :
    preorder conf pass (pre ++ t :: post) st = preorder conf pass (pre ++ t' :: post) st := by
  induction pre generalizing st with
  | nil => simp [preorder, h]
  | cons u us ih =>
    simp only [List.cons_append, preorder]
    cases visit conf pass st u with
    | ok st1 => exact ih st1
    | panic => rfl
    | fuel => rfl

theorem preorder_ok_visit (conf : Config) (pass : Pass) (pre post : List TypeSpec)
    (t : TypeSpec) (st st' : ScanState)
    (h : preorder conf pass (pre ++ t :: post) st = .ok st') :
    ∃ st₁ st₂, visit conf pass st₁ t = .ok st₂ := by
  induction pre generalizing st with
  | nil =>
    simp only [List.nil_append, preorder] at h
    cases hv : visit conf pass st t with
    | ok st1 => exact ⟨st, st1, hv⟩
    | panic => simp [hv] at h
    | fuel => simp [hv] at h
  | cons u us ih =>
    simp only [List.cons_append, preorder] at h
    cases hu : visit conf pass st u with
    | ok st1 =>
      simp only [hu] at h
      exact ih st1 h
    | panic => simp [hu] at h
    | fuel => simp [hu] at h

theorem run_insert (rc : Option Config) (objectOf : Ident → Object)
    (pre post : List TypeSpec) (name : Ident) (fs₁ fs₂ : List Field) (f : Field)
    (tags : List fieldTag) (hn : f.Names = []) (he : extractTags f = .ok tags) :
    run rc ⟨pre ++ ⟨name, .StructType (some (fs₁ ++ f :: fs₂))⟩ :: post, objectOf⟩
      = run rc ⟨pre ++ ⟨name, .StructType (some (fs₁ ++ fs₂))⟩ :: post, objectOf⟩ := by
  cases rc with
  | none => rfl
  | some conf =>
    unfold run
    simp only
    rw [preorder_objectOf conf _ (pre ++ ⟨name, .StructType (some (fs₁ ++ fs₂))⟩ :: post)]
    rw [preorder_congr conf _ pre post ⟨name, .StructType (some (fs₁ ++ f :: fs₂))⟩
      ⟨name, .StructType (some (fs₁ ++ fs₂))⟩ ([], []) fun st => by
        simp only [visit]
        exact scanFields_insert conf _ fs₁ fs₂ f st tags hn he]

/-! ## The claims on `run` and the query API -/

/-- C4: the registry returned by the scan maps an identity to `true` exactly
when it is the identity of a declared name of some field of a struct type
declaration whose tag literal has, among the entries of `extractTags`, one
that satisfies the predicate; it holds no other key and no `false` value, and
`IsSource` is `true` on exactly these identities, `false` on every other one.
The scan does return a registry when no tag literal ends in a backslash. -/
theorem run_registry (conf : Config) (pass : Pass) (id : Object) :
    ((∀ f ∈ structFields pass, ∀ w : GoString, f.Tag = some ⟨w⟩ → w.getLast? ≠ some 92) →
        ∃ r diags, run (some conf) pass = .ok r diags)
    ∧ ∀ r diags, run (some conf) pass = .ok r diags →
        (r.lookup id = some true ↔ TaggedIdentity conf pass id)
        ∧ (r.lookup id = none ↔ ¬ TaggedIdentity conf pass id)
        ∧ (IsSource r id = true ↔ TaggedIdentity conf pass id)
        ∧ (¬ TaggedIdentity conf pass id → IsSource r id = false) := by
  constructor
  · intro h
    have hall : ∀ f ∈ pass.TypeSpecs.flatMap declaredFields, ∃ tags, extractTags f = .ok tags := by
      intro f hf
      unfold extractTags
      cases ht : f.Tag with
      | none => exact ⟨[], rfl⟩
      | some lit => exact parseTag_ok lit.Value (h f hf lit.Value ht)
    obtain ⟨st, hst⟩ := preorder_returns conf pass pass.TypeSpecs ([], []) hall
    exact ⟨st.1, st.2, by simp [run, hst]⟩
  · intro r diags h
    obtain ⟨hr, -⟩ := run_ok conf pass r diags h
    have hl := lookup_recordNames pass
      (((structFields pass).filter (isRecorded conf)).flatMap fun f => f.Names) [] id
    rw [← hr] at hl
    rw [taggedIdentity_iff]
    unfold IsSource
    rw [hl]
    by_cases hm : id ∈ (((structFields pass).filter (isRecorded conf)).flatMap
        fun f => f.Names).map pass.ObjectOf
    · simp [hm]
    · simp [hm]

theorem run_registry_witness :
    run (some exampleConfig) examplePass
        = .ok [(140, true), (60, true), (13, true), (10, true)]
            [⟨10, ascii "tagged field: x, y"⟩, ⟨60, ascii "tagged field: Name"⟩,
              ⟨140, ascii "tagged field: Secret"⟩]
    ∧ TaggedIdentity exampleConfig examplePass 13
    ∧ ¬ TaggedIdentity exampleConfig examplePass 40 :=
  have h : run (some exampleConfig) examplePass
      = .ok [(140, true), (60, true), (13, true), (10, true)]
          [⟨10, ascii "tagged field: x, y"⟩, ⟨60, ascii "tagged field: Name"⟩,
            ⟨140, ascii "tagged field: Secret"⟩] := by decide
  ⟨h, ((run_registry exampleConfig examplePass 13).2 _ _ h).1.mp (by decide),
    ((run_registry exampleConfig examplePass 40).2 _ _ h).2.1.mp (by decide)⟩

/-- C5: the diagnostics of a scan that returns are, in declaration order,
one message per struct field that declares at least one name and whose
parsed tag has an entry satisfying the predicate: the text
`tagged field: ` followed by the field's declared names joined by `, `, at
the field's position.  Every declared name of such a field is recorded as
`true`, and there are as many diagnostics as such fields. -/
theorem run_diagnostics (conf : Config) (pass : Pass) (r : ResultType)
    (diags : List Diagnostic) (h : run (some conf) pass = .ok r diags) :
    diags = ((structFields pass).filter fun f => hasSourceTag conf f && !f.Names.isEmpty).map
        (fun f => ⟨f.Pos,
          ascii "tagged field: " ++ Join (f.Names.map fun ident => ident.Name) (ascii ", ")⟩)
    ∧ (∀ f ∈ structFields pass, hasSourceTag conf f = true →
        ∀ ident ∈ f.Names, IsSource r (pass.ObjectOf ident) = true)
    ∧ diags.length
        = (structFields pass).countP fun f => hasSourceTag conf f && !f.Names.isEmpty := by
  obtain ⟨hr, hd⟩ := run_ok conf pass r diags h
  refine ⟨hd, ?_, ?_⟩
  · intro f hf ht ident hi
    have hl := lookup_recordNames pass
      (((structFields pass).filter (isRecorded conf)).flatMap fun f => f.Names) []
      (pass.ObjectOf ident)
    rw [← hr] at hl
    unfold IsSource
    rw [hl, if_pos]
    · rfl
    · simp only [List.mem_map, List.mem_flatMap, List.mem_filter]
      refine ⟨ident, ⟨f, ⟨hf, ?_⟩, hi⟩, rfl⟩
      unfold isRecorded
      rw [ht]
      cases hn : f.Names with
      | nil => simp [hn] at hi
      | cons a as => simp
  · rw [hd, List.length_map, List.countP_eq_length_filter]
    rfl

theorem run_diagnostics_witness :
    run (some exampleConfig) examplePass
        = .ok [(140, true), (60, true), (13, true), (10, true)]
            [⟨10, ascii "tagged field: x, y"⟩, ⟨60, ascii "tagged field: Name"⟩,
              ⟨140, ascii "tagged field: Secret"⟩]
    ∧ IsSource [(140, true), (60, true), (13, true), (10, true)] 10 = true
    ∧ IsSource [(140, true), (60, true), (13, true), (10, true)] 13 = true
    ∧ (structFields examplePass).countP
        (fun f => hasSourceTag exampleConfig f && !f.Names.isEmpty) = 3 :=
  have h : run (some exampleConfig) examplePass
      = .ok [(140, true), (60, true), (13, true), (10, true)]
          [⟨10, ascii "tagged field: x, y"⟩, ⟨60, ascii "tagged field: Name"⟩,
            ⟨140, ascii "tagged field: Secret"⟩] := by decide
  have hx := (run_diagnostics exampleConfig examplePass _ _ h).2.1
    ⟨[⟨10, ascii "x"⟩, ⟨13, ascii "y"⟩], 15, some ⟨ascii "`levee:\"source\"`"⟩⟩
    (by decide) (by decide)
  ⟨h, hx ⟨10, ascii "x"⟩ (by decide), hx ⟨13, ascii "y"⟩ (by decide),
    ((run_diagnostics exampleConfig examplePass _ _ h).2.2).symm⟩

/-- C6: anonymous fields are ignored.  Inserting into a struct a field that
declares no name, whatever its tag literal, leaves the registry and the
diagnostics of the scan as they are: a scan that returns with the field
inserted returns the same registry and diagnostics without it, and the two
scans have the same outcome whenever `extractTags` returns on the inserted
field. -/
theorem run_anonymous_field (rc : Option Config) (objectOf : Ident → Object)
    (pre post : List TypeSpec) (name : Ident) (fs₁ fs₂ : List Field) (f : Field)
    (hn : f.Names = []) :
    (∀ r diags,
      run rc ⟨pre ++ ⟨name, .StructType (some (fs₁ ++ f :: fs₂))⟩ :: post, objectOf⟩
          = .ok r diags →
        run rc ⟨pre ++ ⟨name, .StructType (some (fs₁ ++ fs₂))⟩ :: post, objectOf⟩
          = .ok r diags)
    ∧ ((∃ tags, extractTags f = .ok tags) →
        run rc ⟨pre ++ ⟨name, .StructType (some (fs₁ ++ f :: fs₂))⟩ :: post, objectOf⟩
          = run rc ⟨pre ++ ⟨name, .StructType (some (fs₁ ++ fs₂))⟩ :: post, objectOf⟩)
    ∧ ((∀ w : GoString, f.Tag = some ⟨w⟩ → w.getLast? ≠ some 92) →
        run rc ⟨pre ++ ⟨name, .StructType (some (fs₁ ++ f :: fs₂))⟩ :: post, objectOf⟩
          = run rc ⟨pre ++ ⟨name, .StructType (some (fs₁ ++ fs₂))⟩ :: post, objectOf⟩) := by
  refine ⟨?_, ?_, ?_⟩
  · intro r diags h
    cases rc with
    | none => simp [run] at h
    | some conf =>
      have h' := h
      unfold run at h'
      simp only at h'
      cases hp : preorder conf
          ⟨pre ++ ⟨name, .StructType (some (fs₁ ++ f :: fs₂))⟩ :: post, objectOf⟩
          (pre ++ ⟨name, .StructType (some (fs₁ ++ f :: fs₂))⟩ :: post) ([], []) with
      | panic => simp [hp] at h'
      | fuel => simp [hp] at h'
      | ok st =>
        obtain ⟨st1, st2, hv⟩ := preorder_ok_visit conf _ pre post _ _ st hp
        simp only [visit] at hv
        obtain ⟨tags, he⟩ := scanFields_insert_ok conf _ fs₁ fs₂ f st1 st2 hv
        rw [← run_insert (some conf) objectOf pre post name fs₁ fs₂ f tags hn he]
        exact h
  · rintro ⟨tags, he⟩
    exact run_insert rc objectOf pre post name fs₁ fs₂ f tags hn he
  · intro hl
    have he : ∃ tags, extractTags f = .ok tags := by
      unfold extractTags
      cases ht : f.Tag with
      | none => exact ⟨[], rfl⟩
      | some lit => exact parseTag_ok lit.Value (hl lit.Value ht)
    obtain ⟨tags, he⟩ := he
    exact run_insert rc objectOf pre post name fs₁ fs₂ f tags hn he

theorem run_anonymous_field_witness :
    run (some exampleConfig)
        ⟨[⟨⟨55, ascii "B"⟩, .StructType (some ([⟨[⟨60, ascii "Name"⟩], 65,
            some ⟨ascii "`levee:\"source\"`"⟩⟩]
          ++ ⟨[], 110, some ⟨ascii "`levee:\"source\"`"⟩⟩ :: []))⟩],
          fun ident => ident.NamePos⟩
      = .ok [(60, true)] [⟨60, ascii "tagged field: Name"⟩]
    ∧ run (some exampleConfig)
        ⟨[⟨⟨55, ascii "B"⟩, .StructType (some ([⟨[⟨60, ascii "Name"⟩], 65,
            some ⟨ascii "`levee:\"source\"`"⟩⟩] ++ []))⟩],
          fun ident => ident.NamePos⟩
      = .ok [(60, true)] [⟨60, ascii "tagged field: Name"⟩] :=
  ⟨by decide,
    (run_anonymous_field (some exampleConfig) (fun ident => ident.NamePos) [] []
      ⟨55, ascii "B"⟩ [⟨[⟨60, ascii "Name"⟩], 65, some ⟨ascii "`levee:\"source\"`"⟩⟩] []
      ⟨[], 110, some ⟨ascii "`levee:\"source\"`"⟩⟩ rfl).1 _ _ (by decide)⟩

/-- C10: on a field access whose operand has a static type whose underlying
type is a pointer to a type whose underlying type is a struct with more than
`idx` fields, `IsSourceFieldAddr` returns `IsSource` of the `idx`-th declared
field of that struct: `true` on a field recorded as tagged, `false` on an
unrecorded field; `IsSource` returns the stored flag, or `false` when the
identity is absent. -/
theorem IsSourceFieldAddr_eq (r : ResultType) (fa : FieldAddr) (elem : GoType)
    (fields : List Object) (idx : Nat) (field : Object)
    (hptr : fa.XType.Underlying = .Pointer elem) (hstruct : elem.Underlying = .Struct fields)
    (hidx : fa.Field = (idx : Int)) (hfield : fields[idx]? = some field) :
    IsSourceFieldAddr r fa = .ok (IsSource r field)
    ∧ (r.lookup field = some true → IsSourceFieldAddr r fa = .ok true)
    ∧ (r.lookup field = none → IsSourceFieldAddr r fa = .ok false)
    ∧ (∀ b, r.lookup field = some b → IsSource r field = b)
    ∧ (r.lookup field = none → IsSource r field = false) := by
  have h : IsSourceFieldAddr r fa = .ok (IsSource r field) := by
    unfold IsSourceFieldAddr
    rw [hptr]
    simp only
    rw [hstruct]
    simp only
    rw [hidx, if_neg (by omega)]
    simp only [Int.toNat_ofNat, hfield]
  refine ⟨h, ?_, ?_, ?_, ?_⟩
  · intro hl
    rw [h]
    simp [IsSource, hl]
  · intro hl
    rw [h]
    simp [IsSource, hl]
  · intro b hl
    simp [IsSource, hl]
  · intro hl
    simp [IsSource, hl]

theorem IsSourceFieldAddr_eq_witness :
    IsSourceFieldAddr [(140, true), (60, true), (13, true), (10, true)]
        ⟨.Pointer (.Named (.Struct [10, 13, 40])), 1⟩ = .ok true
    ∧ IsSourceFieldAddr [(140, true), (60, true), (13, true), (10, true)]
        ⟨.Pointer (.Named (.Struct [10, 13, 40])), 2⟩ = .ok false :=
  ⟨(IsSourceFieldAddr_eq [(140, true), (60, true), (13, true), (10, true)]
      ⟨.Pointer (.Named (.Struct [10, 13, 40])), 1⟩ (.Named (.Struct [10, 13, 40]))
      [10, 13, 40] 1 13 rfl rfl rfl (by decide)).2.1 (by decide),
    (IsSourceFieldAddr_eq [(140, true), (60, true), (13, true), (10, true)]
      ⟨.Pointer (.Named (.Struct [10, 13, 40])), 2⟩ (.Named (.Struct [10, 13, 40]))
      [10, 13, 40] 2 40 rfl rfl rfl (by decide)).2.2.1 (by decide)⟩

/-! ## Escapes inside a value -/

/-- The value scan runs across ordinary bytes and escape pairs up to the
first double quote that is not escaped. -/
theorem scanValue_escaped (v : GoString) (hv : Escaped v) (pre rest : GoString) :
    scanValue (pre ++ (v ++ 34 :: rest)) pre.length = pre.length + v.length := by
  induction hv generalizing pre with
  | nil =>
    simp only [List.nil_append, List.length_nil, Nat.add_zero]
    exact scanValue_stop _ _ (Or.inl (by rw [getElem?_at]; simp))
  | plain c v h34 h92 _ ih =>
    have hc : (pre ++ (c :: v ++ 34 :: rest))[pre.length]? = some c := by
      rw [getElem?_at]
      simp
    rw [scanValue_eq, hc]
    simp only [ne_eq, h34, not_false_eq_true, if_true, h92, if_false]
    have hw : pre ++ (c :: v ++ 34 :: rest) = (pre ++ [c]) ++ (v ++ 34 :: rest) := by simp
    rw [hw, show pre.length + 1 = (pre ++ [c]).length by simp, ih (pre ++ [c])]
    simp
    omega
  | pair c v _ ih =>
    have hc : (pre ++ (92 :: c :: v ++ 34 :: rest))[pre.length]? = some 92 := by
      rw [getElem?_at]
      simp
    rw [scanValue_eq, hc]
    simp only [ne_eq, show (92 : Nat) ≠ 34 by decide, not_false_eq_true, if_true]
    have hw : pre ++ (92 :: c :: v ++ 34 :: rest) = (pre ++ [92, c]) ++ (v ++ 34 :: rest) := by
      simp
    rw [hw, show pre.length + 1 + 1 = (pre ++ [92, c]).length by simp, ih (pre ++ [92, c])]
    simp
    omega

theorem TrimSuffix_of_not_suffix (v suffix : GoString) (h : ¬ suffix <:+ v) :
    TrimSuffix v suffix = v := by
  unfold TrimSuffix
  rw [if_neg]
  rwa [List.isSuffixOf_iff_suffix]

/-- One iteration of the outer loop on a segment whose value has escapes:
the value runs up to the first double quote that is not escaped. -/
theorem body_segment_escaped (pre k v rest : GoString) (tags : List fieldTag)
    (hk : k ≠ []) (hkc : 58 ∉ k) (hv : v ≠ []) (hesc : Escaped v)
    (hsuf : ¬ [92, 34] <:+ v) :
    body (pre ++ (k ++ (58 :: 34 :: (v ++ (34 :: rest))))) pre.length pre.length tags
      = .next (pre.length + k.length + v.length + 4) (pre.length + k.length + v.length + 4)
          (tags ++ (Split 44 v).map (fun s => fieldTag.mk k s)) := by
  have hw : pre ++ (k ++ (58 :: 34 :: (v ++ (34 :: rest))))
      = (pre ++ (k ++ [58, 34])) ++ (v ++ (34 :: rest)) := by simp
  have hlen : (pre ++ (k ++ [58, 34])).length = pre.length + k.length + 1 + 1 := by
    simp; omega
  unfold body
  simp only
  rw [scanKey_mid pre k _ hkc (Or.inl (by simp)), slice_mid]
  simp only [hk, if_false]
  have hq : (pre ++ (k ++ (58 :: 34 :: (v ++ (34 :: rest)))))[pre.length + k.length + 1]?
      = some 34 := by
    rw [show pre ++ (k ++ (58 :: 34 :: (v ++ (34 :: rest))))
      = (pre ++ (k ++ [58])) ++ (34 :: (v ++ (34 :: rest))) by simp]
    rw [show pre.length + k.length + 1 = (pre ++ (k ++ [58])).length by simp; omega]
    rw [getElem?_at]
    simp
  rw [if_neg (by simp; omega), hq]
  simp only [Option.some.injEq, show (34 : Nat) ≠ 92 by decide, if_false]
  rw [hw, ← hlen, scanValue_escaped v hesc, slice_mid]
  simp only [TrimSuffix_of_not_suffix v _ hsuf, hv, if_false]
  rw [hlen]
  congr 1 <;> omega

/-- C13: escapes inside a value.  For a non-empty key `k` without `':'` and
a non-empty value `v` made of ordinary bytes (neither `'"'` nor backslash)
and escape pairs (a backslash followed by any byte) that does not end in the
pair backslash-quote, `extractTags` on the backtick-delimited literal
`k:"v"` returns the entries (k, s) for s in the plain comma-split of `v`:
an escaped quote does not end the value, the backslashes stay in the
values, and an escaped comma still splits. -/
theorem extractTags_escaped_value (field : Field) (k v : GoString)
    (hk : k ≠ []) (hkc : 58 ∉ k) (hv : v ≠ []) (hesc : Escaped v)
    (hsuf : ¬ [92, 34] <:+ v)
    (htag : field.Tag = some ⟨backquoted (k ++ ascii ":\"" ++ v ++ ascii "\"")⟩) :
    extractTags field = .ok ((Split 44 v).map fun s => fieldTag.mk k s) := by
  unfold extractTags
  rw [htag]
  show parseTag (backquoted (k ++ ascii ":\"" ++ v ++ ascii "\"")) = _
  have hw : backquoted (k ++ ascii ":\"" ++ v ++ ascii "\"")
      = [96] ++ (k ++ (58 :: 34 :: (v ++ (34 :: [96])))) := by
    simp [backquoted, ascii]
  rw [hw]
  unfold parseTag
  have hb := body_segment_escaped [96] k v [96] [] hk hkc hv hesc hsuf
  rw [loop_next _ _ 1 1 _ _ [] _ (by simp) (by simp) hb]
  exact loop_done _ _ _ _ _ (by simp; omega)

theorem extractTags_escaped_value_witness :
    extractTags ⟨[], 0, some ⟨ascii "`k:\"a\\\"b\\,c\\\\\"`"⟩⟩
      = .ok [⟨ascii "k", ascii "a\\\"b\\"⟩, ⟨ascii "k", ascii "c\\\\"⟩] :=
  extractTags_escaped_value _ (ascii "k") (ascii "a\\\"b\\,c\\\\")
    (by decide) (by decide) (by decide)
    (.plain 97 _ (by decide) (by decide) (.pair 34 _ (.plain 98 _ (by decide) (by decide)
      (.pair 44 _ (.plain 99 _ (by decide) (by decide) (.pair 92 _ .nil))))))
    (by decide) (by decide)

/-! ## The two delimiter forms, empty elements -/

/-- C11, the code at the failing input: on the double-quote-delimited
literal with two segments and escaped inner quotes, the value scan skips the
escaped quote that closes the first value and runs to the end of the
literal, so one entry is returned whose value holds the rest of the literal;
the backtick-delimited literal gives the entries of both segments.  With a
single segment the two forms give the same entries. -/
theorem extractTags_quoted_two_segments :
    extractTags ⟨[], 0, some ⟨ascii "\"json:\\\"name\\\" levee:\\\"source\\\"\""⟩⟩
      = .ok [⟨ascii "json", ascii "name\\\" levee:\\\"source"⟩]
    ∧ extractTags ⟨[], 0, some ⟨ascii "`json:\"name\" levee:\"source\"`"⟩⟩
      = .ok [⟨ascii "json", ascii "name"⟩, ⟨ascii "levee", ascii "source"⟩]
    ∧ extractTags ⟨[], 0, some ⟨ascii "\"levee:\\\"source\\\"\""⟩⟩
      = extractTags ⟨[], 0, some ⟨ascii "`levee:\"source\"`"⟩⟩ := by
  decide

/-- C12, counterexample: the segment `k:"a,,b"` is not treated as an empty
value; it yields three entries, the second with an empty value, and the
parse goes on with the next segment. -/
theorem extractTags_empty_element_kept :
    extractTags ⟨[], 0, some ⟨ascii "`k:\"a,,b\" z:\"y\"`"⟩⟩
      = .ok [⟨ascii "k", ascii "a"⟩, ⟨ascii "k", []⟩, ⟨ascii "k", ascii "b"⟩,
          ⟨ascii "z", ascii "y"⟩] := by
  decide

/-- C12, amended: on the backtick-delimited literal made of one or more
well-formed segments, `extractTags` returns an entry for every element of
the comma-split of every value, the empty elements included, so that an
entry with an empty value is returned exactly when the value list of some
segment has an empty element; `k:"a,,b"` gives (k,a), (k,), (k,b) and
`k:","` gives (k,), (k,), while the wholly empty value of `k:""` stops the
parse. -/
theorem extractTags_empty_element (field : Field) (segs : List (GoString × GoString))
    (hne : segs ≠ []) (hwf : ∀ s ∈ segs, WellFormed s)
    (htag : field.Tag = some ⟨backquoted (Join (segs.map segment) [32])⟩) :
    (∃ tags, extractTags field = .ok tags
      ∧ (∀ kv ∈ segs, ∀ s ∈ Split 44 kv.2, fieldTag.mk kv.1 s ∈ tags)
      ∧ ((∃ t ∈ tags, t.val = []) ↔ ∃ kv ∈ segs, [] ∈ Split 44 kv.2))
    ∧ extractTags ⟨[], 0, some ⟨ascii "`k:\"a,,b\"`"⟩⟩
      = .ok [⟨ascii "k", ascii "a"⟩, ⟨ascii "k", []⟩, ⟨ascii "k", ascii "b"⟩]
    ∧ extractTags ⟨[], 0, some ⟨ascii "`k:\",\"`"⟩⟩ = .ok [⟨ascii "k", []⟩, ⟨ascii "k", []⟩]
    ∧ extractTags ⟨[], 0, some ⟨ascii "`k:\"\" z:\"y\"`"⟩⟩ = .ok [] := by
  refine ⟨⟨segs.flatMap segmentTags, ?_, ?_, ?_⟩, by decide, by decide, by decide⟩
  · unfold extractTags
    rw [htag]
    exact parseTag_segments segs hne hwf
  · intro kv hkv s hs
    simp only [List.mem_flatMap, segmentTags, List.mem_map]
    exact ⟨kv, hkv, s, hs, rfl⟩
  · simp only [List.mem_flatMap, segmentTags, List.mem_map]
    constructor
    · rintro ⟨t, ⟨kv, hkv, s, hs, rfl⟩, ht⟩
      simp only at ht
      exact ⟨kv, hkv, ht ▸ hs⟩
    · rintro ⟨kv, hkv, hs⟩
      exact ⟨⟨kv.1, []⟩, ⟨kv, hkv, [], hs, rfl⟩, rfl⟩

theorem extractTags_empty_element_witness :
    ∃ tags, extractTags ⟨[], 0, some ⟨ascii "`json:\"name,\" levee:\"source\"`"⟩⟩ = .ok tags
      ∧ (∃ t ∈ tags, t.val = []) :=
  have h := (extractTags_empty_element
    ⟨[], 0, some ⟨ascii "`json:\"name,\" levee:\"source\"`"⟩⟩
    [(ascii "json", ascii "name,"), (ascii "levee", ascii "source")]
    (by decide) (by decide) (by decide)).1
  h.elim fun tags ht => ⟨tags, ht.1, ht.2.2.mpr ⟨(ascii "json", ascii "name,"), by decide, by decide⟩⟩

/-! ## Invariants of the outer loop -/

/-- What an iteration that reaches the end of the loop body has done. -/
theorem body_next_inv (w : GoString) (i j i' j' : Nat) (tags t : List fieldTag)
    (h : body w i j tags = .next i' j' t) :
    ∃ key value i₂,
      slice w i (scanKey w j) = some key ∧ key ≠ [] ∧ scanKey w j + 1 < w.length
      ∧ i₂ = (if w[scanKey w j + 1]? = some 92 then scanKey w j + 1 + 1
          else scanKey w j + 1) + 1
      ∧ slice w i₂ (scanValue w i₂) = some value ∧ TrimSuffix value [92, 34] ≠ []
      ∧ t = tags ++ (Split 44 (TrimSuffix value [92, 34])).map (fun v => fieldTag.mk key v)
      ∧ i' = scanValue w i₂ + 2 ∧ j' = scanValue w i₂ + 2 := by
  unfold body at h
  simp only at h
  split at h
  · exact absurd h (by simp)
  · rename_i key hkey
    split at h
    · exact absurd h (by simp)
    · rename_i hne
      split at h
      · exact absurd h (by simp)
      · rename_i hlt
        split at h
        · exact absurd h (by simp)
        · rename_i value hvalue
          split at h
          · exact absurd h (by simp)
          · rename_i hvne
            simp only [Step.next.injEq] at h
            obtain ⟨hi, hj, ht⟩ := h
            exact ⟨key, value, _, hkey, hne, by omega, rfl, hvalue, hvne, ht.symm,
              hi.symm, hj.symm⟩

/-- Induction over the iterations of the outer loop started with `i = j`: a
property of (`j`, `tags`) that holds at the start and is kept by every
iteration that reaches the end of the body holds of what the loop
returns. -/
theorem loop_induct (w : GoString) (I : Nat → List fieldTag → Prop)
    (hnext : ∀ j tags i' j' t, I j tags → j < w.length →
      body w j j tags = .next i' j' t → I j' t)
    (fuel j : Nat) (tags res : List fieldTag) (h0 : I j tags)
    (h : loop w fuel j j tags = .ok res) : ∃ j', I j' res := by
  induction fuel generalizing j tags with
  | zero =>
    simp only [loop] at h
    split at h
    · exact absurd h (by simp)
    · exact ⟨j, (Outcome.ok.inj h) ▸ h0⟩
  | succ n ih =>
    simp only [loop] at h
    split at h
    · rename_i hj
      cases hb : body w j j tags with
      | ret t =>
        simp only [hb, Outcome.ok.injEq] at h
        exact ⟨j, h ▸ (body_ret w j j tags t hb) ▸ h0⟩
      | panic => simp [hb] at h
      | next i' j' t =>
        simp only [hb] at h
        have hij := (body_next w j j i' j' tags t hb).1
        subst hij
        exact ih i' t (hnext j tags i' i' t h0 hj hb) h
    · exact ⟨j, (Outcome.ok.inj h) ▸ h0⟩

theorem scanKeyLoop_no_colon (w : GoString) (fuel j x : Nat) (h1 : j ≤ x)
    (h2 : x < scanKeyLoop w fuel j) : w[x]? ≠ some 58 := by
  induction fuel generalizing j with
  | zero =>
    simp only [scanKeyLoop] at h2
    omega
  | succ n ih =>
    simp only [scanKeyLoop] at h2
    split at h2
    · rename_i b hb
      split at h2
      · rename_i hne
        rcases Nat.eq_or_lt_of_le h1 with heq | hlt
        · subst heq
          rw [hb]
          simpa using hne
        · exact ih (j + 1) hlt h2
      · omega
    · omega

theorem scanKeyLoop_at (w : GoString) (fuel j : Nat) (hf : w.length ≤ fuel + j)
    (h : scanKeyLoop w fuel j < w.length) : w[scanKeyLoop w fuel j]? = some 58 := by
  induction fuel generalizing j with
  | zero =>
    simp only [scanKeyLoop] at h
    omega
  | succ n ih =>
    simp only [scanKeyLoop] at h ⊢
    split
    · rename_i b hb
      rw [hb] at h
      simp only at h
      split
      · rename_i hne
        rw [if_pos hne] at h
        exact ih (j + 1) (by omega) h
      · rename_i hne
        rw [hb]
        simpa using hne
    · rename_i hnone
      rw [hnone] at h
      simp only at h
      have := List.getElem?_eq_none_iff.mp hnone
      omega

theorem scanKey_at (w : GoString) (j : Nat) (h : scanKey w j < w.length) :
    w[scanKey w j]? = some 58 :=
  scanKeyLoop_at w _ j (by omega) h

theorem scanValueLoop_at (w : GoString) (fuel j : Nat) (hf : w.length ≤ fuel + j)
    (h : scanValueLoop w fuel j < w.length) : w[scanValueLoop w fuel j]? = some 34 := by
  induction fuel generalizing j with
  | zero =>
    simp only [scanValueLoop] at h
    omega
  | succ n ih =>
    simp only [scanValueLoop] at h ⊢
    split
    · rename_i b hb
      rw [hb] at h
      simp only at h
      split
      · rename_i hne
        rw [if_pos hne] at h
        split
        · rename_i h92
          rw [if_pos h92] at h
          exact ih (j + 1 + 1) (by omega) h
        · rename_i h92
          rw [if_neg h92] at h
          exact ih (j + 1) (by omega) h
      · rename_i hne
        rw [hb]
        simpa using hne
    · rename_i hnone
      rw [hnone] at h
      simp only at h
      have := List.getElem?_eq_none_iff.mp hnone
      omega

theorem scanValue_at (w : GoString) (j : Nat) (h : scanValue w j < w.length) :
    w[scanValue w j]? = some 34 :=
  scanValueLoop_at w _ j (by omega) h

theorem slice_eq (w : GoString) (i j : Nat) (x : GoString) (h : slice w i j = some x) :
    i ≤ j ∧ j ≤ w.length ∧ x = (w.drop i).take (j - i) := by
  unfold slice at h
  split at h
  · rename_i hb
    exact ⟨hb.1, hb.2, (Option.some.inj h).symm⟩
  · exact absurd h (by simp)

theorem slice_isInfix (w : GoString) (i j : Nat) (x : GoString) (h : slice w i j = some x) :
    x <:+: w := by
  obtain ⟨-, -, rfl⟩ := slice_eq w i j x h
  have hp : (w.drop i).take (j - i) <+: w.drop i := List.take_prefix _ _
  exact hp.isInfix.trans (List.drop_suffix i w).isInfix

theorem slice_mem (w : GoString) (i j : Nat) (x : GoString) (h : slice w i j = some x)
    (b : Nat) (hb : b ∈ x) : ∃ n, i ≤ n ∧ n < j ∧ w[n]? = some b := by
  obtain ⟨-, -, rfl⟩ := slice_eq w i j x h
  obtain ⟨n, hn⟩ := List.mem_iff_getElem?.mp hb
  rw [List.getElem?_take] at hn
  split at hn
  · rename_i hlt
    rw [List.getElem?_drop] at hn
    exact ⟨i + n, by omega, by omega, hn⟩
  · exact absurd hn (by simp)

theorem Split_not_mem (sep : Nat) (v x : GoString) (h : x ∈ Split sep v) : sep ∉ x := by
  induction v generalizing x with
  | nil =>
    simp only [Split, List.mem_singleton] at h
    subst h
    simp
  | cons b bs ih =>
    simp only [Split] at h
    split at h
    · rcases List.mem_cons.mp h with h | h
      · subst h
        simp
      · exact ih x h
    · rename_i hne
      split at h
      · rename_i heq
        exact absurd heq (Split_ne_nil sep bs)
      · rename_i hd tl heq
        rcases List.mem_cons.mp h with h | h
        · subst h
          have := ih hd (heq ▸ List.mem_cons_self _ _)
          simp only [List.mem_cons, not_or]
          exact ⟨fun hc => hne hc.symm, this⟩
        · exact ih x (heq ▸ List.mem_cons_of_mem _ h)

theorem Split_head_isPrefix (sep : Nat) (v : GoString) :
    ∃ hd tl, Split sep v = hd :: tl ∧ hd <+: v := by
  cases v with
  | nil => exact ⟨[], [], rfl, List.prefix_refl _⟩
  | cons b bs =>
    simp only [Split]
    split
    · exact ⟨[], _, rfl, List.nil_prefix⟩
    · obtain ⟨hd, tl, heq, hp⟩ := Split_head_isPrefix sep bs
      rw [heq]
      exact ⟨b :: hd, tl, rfl, (List.prefix_cons_inj b).mpr hp⟩

theorem Split_isInfix (sep : Nat) (v x : GoString) (h : x ∈ Split sep v) : x <:+: v := by
  induction v generalizing x with
  | nil =>
    simp only [Split, List.mem_singleton] at h
    subst h
    exact List.infix_refl _
  | cons b bs ih =>
    simp only [Split] at h
    split at h
    · rcases List.mem_cons.mp h with h | h
      · subst h
        exact List.nil_infix
      · exact (ih x h).trans (List.suffix_cons b bs).isInfix
    · obtain ⟨hd, tl, heq, hp⟩ := Split_head_isPrefix sep bs
      rw [heq] at h
      simp only at h
      rcases List.mem_cons.mp h with h | h
      · subst h
        exact ((List.prefix_cons_inj b).mpr hp).isInfix
      · exact (ih x (heq ▸ List.mem_cons_of_mem _ h)).trans (List.suffix_cons b bs).isInfix

theorem TrimSuffix_isPrefix (v suffix : GoString) : TrimSuffix v suffix <+: v := by
  unfold TrimSuffix
  split
  · exact List.take_prefix _ _
  · exact List.prefix_refl _

/-- The entries appended by an iteration started with `i = j`: the key is
the non-empty slice up to the first `':'`, the values are the elements of
the comma-split of a prefix of a slice. -/
theorem body_next_entries (w : GoString) (j i' j' : Nat) (tags t : List fieldTag)
    (h : body w j j tags = .next i' j' t) :
    ∃ new, t = tags ++ new ∧ ∀ e ∈ new,
      e.key ≠ [] ∧ 58 ∉ e.key ∧ 44 ∉ e.val ∧ e.key <:+: w ∧ e.val <:+: w := by
  obtain ⟨key, value, i₂, hkey, hne, -, -, hvalue, -, ht, -, -⟩ :=
    body_next_inv w j j i' j' tags t h
  refine ⟨_, ht, ?_⟩
  intro e he
  obtain ⟨x, hx, rfl⟩ := List.mem_map.mp he
  refine ⟨hne, ?_, Split_not_mem 44 _ x hx, slice_isInfix w _ _ key hkey, ?_⟩
  · intro hc
    obtain ⟨n, h1, h2, h3⟩ := slice_mem w _ _ key hkey 58 hc
    exact scanKeyLoop_no_colon w _ j n h1 h2 h3
  · exact ((Split_isInfix 44 _ x hx).trans (TrimSuffix_isPrefix value _).isInfix).trans
      (slice_isInfix w _ _ value hvalue)

/-- C16: every entry returned by `extractTags` has a non-empty key without
`':'` and a value without `','`, and both are contiguous substrings of the
tag literal. -/
theorem extractTags_entries_shape (field : Field) (tags : List fieldTag)
    (h : extractTags field = .ok tags) :
    ∀ t ∈ tags, t.key ≠ [] ∧ 58 ∉ t.key ∧ 44 ∉ t.val
      ∧ ∃ w, field.Tag = some ⟨w⟩ ∧ t.key <:+: w ∧ t.val <:+: w := by
  unfold extractTags at h
  cases hf : field.Tag with
  | none =>
    simp only [hf, Outcome.ok.injEq] at h
    subst h
    simp
  | some lit =>
    simp only [hf] at h
    obtain ⟨-, hI⟩ := loop_induct lit.Value
      (fun _ ts => ∀ e ∈ ts,
        e.key ≠ [] ∧ 58 ∉ e.key ∧ 44 ∉ e.val ∧ e.key <:+: lit.Value ∧ e.val <:+: lit.Value)
      (fun j ts i' j' t hI _ hb => by
        obtain ⟨new, rfl, hnew⟩ := body_next_entries lit.Value j i' j' ts t hb
        intro e he
        rcases List.mem_append.mp he with he | he
        · exact hI e he
        · exact hnew e he)
      lit.Value.length 1 [] tags (by simp) h
    intro t ht
    obtain ⟨h1, h2, h3, h4, h5⟩ := hI t ht
    exact ⟨h1, h2, h3, lit.Value, rfl, h4, h5⟩

theorem extractTags_entries_shape_witness :
    ascii "json" ≠ [] ∧ 58 ∉ ascii "json" ∧ 44 ∉ ascii "omitempty"
      ∧ ∃ w, (⟨[], 0, some ⟨ascii "`json:\"name,omitempty\" levee:\"source\"`"⟩⟩ : Field).Tag
          = some ⟨w⟩ ∧ ascii "json" <:+: w ∧ ascii "omitempty" <:+: w :=
  extractTags_entries_shape ⟨[], 0, some ⟨ascii "`json:\"name,omitempty\" levee:\"source\"`"⟩⟩
    [⟨ascii "json", ascii "name"⟩, ⟨ascii "json", ascii "omitempty"⟩,
      ⟨ascii "levee", ascii "source"⟩]
    (by decide) ⟨ascii "json", ascii "omitempty"⟩ (by decide)

/-! ## Termination -/

theorem loopIterations_le (w : GoString) (fuel i j : Nat) (tags : List fieldTag) :
    4 * loopIterations w fuel i j tags ≤ w.length + 3 - j := by
  induction fuel generalizing i j tags with
  | zero => simp [loopIterations]
  | succ n ih =>
    simp only [loopIterations]
    split
    · rename_i hj
      cases hb : body w i j tags with
      | ret t => simp only; omega
      | panic => simp only; omega
      | next i' j' t =>
        simp only
        have h1 := (body_next w i j i' j' tags t hb).2
        have h2 := ih i' j' t
        omega
    · omega

/-- C17: `extractTags` terminates on every literal.  An iteration of the
outer loop that reaches the end of the body has moved `j` forward by at
least 3, so the loop is entered at most `len(wholeTag)` times, whatever the
bound put on the iterations: the bound `len(wholeTag)` is never hit and a
larger bound gives the same outcome. -/
theorem extractTags_terminates (field : Field) (w : GoString) :
    extractTags field ≠ .fuel
    ∧ (∀ i j i' j' tags t, body w i j tags = .next i' j' t → j + 3 ≤ j')
    ∧ (∀ fuel, loopIterations w fuel 1 1 [] ≤ w.length)
    ∧ (∀ fuel, w.length ≤ fuel → loop w fuel 1 1 [] = parseTag w) := by
  refine ⟨?_, ?_, ?_, ?_⟩
  · unfold extractTags
    cases field.Tag with
    | none => simp
    | some lit => exact parseTag_ne_fuel lit.Value
  · intro i j i' j' tags t hb
    have := (body_next w i j i' j' tags t hb).2
    omega
  · intro fuel
    have := loopIterations_le w fuel 1 1 []
    omega
  · intro fuel hf
    exact loop_fuel w fuel w.length 1 1 [] (by omega) (by omega)

theorem extractTags_terminates_witness :
    body (ascii "`k:\"v\"`") 1 1 [] = .next 7 7 [⟨ascii "k", ascii "v"⟩] ∧ 1 + 3 ≤ 7
    ∧ loop (ascii "`k:\"v\"`") 100 1 1 [] = parseTag (ascii "`k:\"v\"`") :=
  ⟨by decide,
    (extractTags_terminates ⟨[], 0, none⟩ (ascii "`k:\"v\"`")).2.1 1 1 7 7 []
      [⟨ascii "k", ascii "v"⟩] (by decide),
    (extractTags_terminates ⟨[], 0, none⟩ (ascii "`k:\"v\"`")).2.2.2 100 (by decide)⟩

/-! ## Accesses in bounds -/

theorem scanKeyReads_inBounds (w : GoString) (fuel j : Nat) :
    ∀ a ∈ scanKeyReads w fuel j, a.InBounds w := by
  induction fuel generalizing j with
  | zero => simp [scanKeyReads]
  | succ n ih =>
    simp only [scanKeyReads]
    split
    · rename_i b hb
      have hj : j < w.length := (List.getElem?_eq_some.mp hb).1
      intro a ha
      rcases List.mem_cons.mp ha with ha | ha
      · subst ha
        exact hj
      · split at ha
        · exact ih (j + 1) a ha
        · exact absurd ha (by simp)
    · simp

theorem scanValueReads_inBounds (w : GoString) (fuel j : Nat) :
    ∀ a ∈ scanValueReads w fuel j, a.InBounds w := by
  induction fuel generalizing j with
  | zero => simp [scanValueReads]
  | succ n ih =>
    simp only [scanValueReads]
    split
    · rename_i b hb
      have hj : j < w.length := (List.getElem?_eq_some.mp hb).1
      intro a ha
      rcases List.mem_cons.mp ha with ha | ha
      · subst ha
        exact hj
      · split at ha
        · rcases List.mem_cons.mp ha with ha | ha
          · subst ha
            exact hj
          · exact ih _ a ha
        · exact absurd ha (by simp)
    · simp

theorem bodyAccesses_inBounds (w : GoString) (i j : Nat) (hl : w.getLast? ≠ some 92)
    (h1 : 1 ≤ i) (hij : i ≤ j) (hj : j ≤ w.length) :
    ∀ a ∈ bodyAccesses w i j, a.InBounds w := by
  have hk1 := scanKey_ge w j
  have hk2 : scanKey w j ≤ w.length := scanKeyLoop_le w _ j hj
  intro a ha
  unfold bodyAccesses at ha
  simp only at ha
  rcases List.mem_append.mp ha with ha | ha
  · exact scanKeyReads_inBounds w _ j a ha
  · rcases List.mem_cons.mp ha with ha | ha
    · subst ha
      exact ⟨h1, by omega, hk2⟩
    · split at ha
      · exact absurd ha (by simp)
      · split at ha
        · exact absurd ha (by simp)
        · split at ha
          · exact absurd ha (by simp)
          · rename_i hlt
            have hlt : scanKey w j + 1 < w.length := by omega
            have hi2 : (if w[scanKey w j + 1]? = some 92 then scanKey w j + 1 + 1
                else scanKey w j + 1) + 1 ≤ w.length := by
              split
              · rename_i h92
                have := backslash_not_last w (scanKey w j + 1) hl h92
                omega
              · omega
            have hi3 : 1 ≤ (if w[scanKey w j + 1]? = some 92 then scanKey w j + 1 + 1
                else scanKey w j + 1) + 1 := by omega
            generalize (if w[scanKey w j + 1]? = some 92 then scanKey w j + 1 + 1
                else scanKey w j + 1) + 1 = i₂ at ha hi2 hi3
            rcases List.mem_cons.mp ha with ha | ha
            · subst ha
              exact hlt
            · rcases List.mem_append.mp ha with ha | ha
              · exact scanValueReads_inBounds w _ i₂ a ha
              · rw [List.mem_singleton] at ha
                subst ha
                exact ⟨hi3, scanValue_ge w i₂, scanValueLoop_le w _ i₂ hl hi2⟩

theorem loopAccesses_inBounds (w : GoString) (hl : w.getLast? ≠ some 92) (fuel i j : Nat)
    (tags : List fieldTag) (h1 : 1 ≤ i) (hij : i ≤ j) :
    ∀ a ∈ loopAccesses w fuel i j tags, a.InBounds w := by
  induction fuel generalizing i j tags with
  | zero => simp [loopAccesses]
  | succ n ih =>
    simp only [loopAccesses]
    split
    · rename_i hj
      intro a ha
      rcases List.mem_append.mp ha with ha | ha
      · exact bodyAccesses_inBounds w i j hl h1 hij (by omega) a ha
      · cases hb : body w i j tags with
        | ret t => simp [hb] at ha
        | panic => simp [hb] at ha
        | next i' j' t =>
          simp only [hb] at ha
          have := body_next w i j i' j' tags t hb
          exact ih i' j' t (by omega) (by omega) a ha
    · simp

/-- C15: on a literal that is empty or does not end in a backslash, every
access `extractTags` makes to `wholeTag` is in bounds: each slice
`wholeTag[i:j]` has `1 ≤ i ≤ j ≤ len(wholeTag)` and each read is below
`len(wholeTag)`; the function returns entries. -/
theorem extractTags_accesses_in_bounds (field : Field) (w : GoString)
    (htag : field.Tag = some ⟨w⟩) (hl : w.getLast? ≠ some 92) :
    (∀ a ∈ extractTagsAccesses field, a.InBounds w)
    ∧ ∃ tags, extractTags field = .ok tags := by
  constructor
  · unfold extractTagsAccesses
    rw [htag]
    exact loopAccesses_inBounds w hl w.length 1 1 [] (Nat.le_refl 1) (Nat.le_refl 1)
  · unfold extractTags
    rw [htag]
    exact parseTag_ok w hl

theorem extractTags_accesses_in_bounds_witness :
    extractTagsAccesses ⟨[], 0, some ⟨ascii "`k:\"v\"`"⟩⟩
      = [.read 1, .read 2, .slice 1 2, .read 3, .read 4, .read 4, .read 5, .slice 4 5]
    ∧ ∀ a ∈ extractTagsAccesses ⟨[], 0, some ⟨ascii "`k:\"v\"`"⟩⟩,
        a.InBounds (ascii "`k:\"v\"`") :=
  ⟨by decide,
    (extractTags_accesses_in_bounds ⟨[], 0, some ⟨ascii "`k:\"v\"`"⟩⟩ (ascii "`k:\"v\"`")
      rfl (by decide)).1⟩

/-! ## The closing delimiter -/

/-- The bytes of the elements of a comma-split other than the last one come
from positions of the value other than the last one. -/
theorem Split_dropLast_mem (sep : Nat) (v x : GoString) (hx : x ∈ (Split sep v).dropLast)
    (b : Nat) (hb : b ∈ x) : ∃ n, n + 1 < v.length ∧ v[n]? = some b := by
  induction v generalizing x with
  | nil => simp [Split] at hx
  | cons c cs ih =>
    simp only [Split] at hx
    split at hx
    · rw [List.dropLast_cons_of_ne_nil (Split_ne_nil sep cs)] at hx
      rcases List.mem_cons.mp hx with hx | hx
      · subst hx
        simp at hb
      · obtain ⟨n, h1, h2⟩ := ih x hx hb
        exact ⟨n + 1, by simp; omega, by simpa using h2⟩
    · cases heq : Split sep cs with
      | nil => exact absurd heq (Split_ne_nil sep cs)
      | cons hd tl =>
        rw [heq] at hx ih
        simp only at hx
        by_cases htl : tl = []
        · subst htl
          simp at hx
        · rw [List.dropLast_cons_of_ne_nil htl] at hx ih
          have hcs : cs ≠ [] := by
            rintro rfl
            simp only [Split, List.cons.injEq] at heq
            exact htl heq.2.symm
          have hlen : 0 < cs.length := List.length_pos.mpr hcs
          rcases List.mem_cons.mp hx with hx | hx
          · subst hx
            rcases List.mem_cons.mp hb with hb | hb
            · subst hb
              exact ⟨0, by simp; omega, by simp⟩
            · obtain ⟨n, h1, h2⟩ := ih hd (List.mem_cons_self _ _) hb
              exact ⟨n + 1, by simp; omega, by simpa using h2⟩
          · obtain ⟨n, h1, h2⟩ := ih x (List.mem_cons_of_mem _ hx) hb
            exact ⟨n + 1, by simp; omega, by simpa using h2⟩

theorem backquoted_getElem (content : GoString) (h : 96 ∉ content) (n : Nat)
    (hn : (backquoted content)[n]? = some 96) :
    n = 0 ∨ n + 1 = (backquoted content).length := by
  unfold backquoted at hn ⊢
  cases n with
  | zero => exact Or.inl rfl
  | succ m =>
    right
    simp only [List.getElem?_cons_succ] at hn
    by_cases hm : m < content.length
    · rw [List.getElem?_append_left hm] at hn
      exact absurd (List.mem_iff_getElem?.mpr ⟨m, hn⟩) h
    · have hlt : m < (content ++ [96]).length := (List.getElem?_eq_some.mp hn).1
      simp at hlt ⊢
      omega

/-- The entries appended by an iteration on a backtick-delimited literal whose
content has no backtick: no key has a backtick, no value other than the last
has one, and the last has none either when the value scan stopped at a double
quote, which is the case when the loop goes on. -/
theorem body_next_backtick (content : GoString) (hc : 96 ∉ content) (j i' j' : Nat)
    (tags t : List fieldTag) (hj : 1 ≤ j)
    (h : body (backquoted content) j j tags = .next i' j' t) :
    ∃ new, new ≠ [] ∧ t = tags ++ new ∧ (∀ e ∈ new, 96 ∉ e.key)
      ∧ (∀ e ∈ new.dropLast, 96 ∉ e.val)
      ∧ (j' < (backquoted content).length → ∀ e ∈ new, 96 ∉ e.val) := by
  obtain ⟨key, value, i₂, hkey, -, hlt, hi₂, hvalue, -, ht, -, hj'⟩ :=
    body_next_inv (backquoted content) j j i' j' tags t h
  have hclean : ∀ n b, 1 ≤ n → n + 1 < (backquoted content).length →
      (backquoted content)[n]? = some b → b ≠ 96 := by
    intro n b h1 h2 h3 h96
    subst h96
    rcases backquoted_getElem content hc n h3 with h0 | hl <;> omega
  obtain ⟨hv1, hv2, hveq⟩ := slice_eq _ _ _ value hvalue
  have hi₂1 : 1 ≤ i₂ := by omega
  have hk := scanKey_ge (backquoted content) j
  refine ⟨_, ?_, ht, ?_, ?_, ?_⟩
  · intro hnil
    exact Split_ne_nil 44 _ (List.map_eq_nil_iff.mp hnil)
  · intro e he h96
    obtain ⟨x, -, rfl⟩ := List.mem_map.mp he
    obtain ⟨n, h1, h2, h3⟩ := slice_mem _ _ _ key hkey 96 h96
    exact hclean n 96 (by omega) (by omega) h3 rfl
  · intro e he h96
    rw [← List.map_dropLast] at he
    obtain ⟨x, hx, rfl⟩ := List.mem_map.mp he
    obtain ⟨n, h1, h2⟩ := Split_dropLast_mem 44 _ x hx 96 h96
    have hp := TrimSuffix_isPrefix value [92, 34]
    have hlen : (TrimSuffix value [92, 34]).length ≤ value.length := hp.length_le
    have h3 : value[n]? = some 96 := by
      obtain ⟨r, hr⟩ := hp
      rw [← hr, List.getElem?_append_left (by omega)]
      exact h2
    have hvl : value.length ≤ scanValue (backquoted content) i₂ - i₂ := by
      rw [hveq, List.length_take]
      omega
    have h4 : (backquoted content)[i₂ + n]? = some 96 := by
      rw [hveq, List.getElem?_take] at h3
      split at h3
      · rw [List.getElem?_drop] at h3
        exact h3
      · exact absurd h3 (by simp)
    exact hclean (i₂ + n) 96 (by omega) (by omega) h4 rfl
  · intro hlt' e he h96
    obtain ⟨x, hx, rfl⟩ := List.mem_map.mp he
    have hq := scanValue_at (backquoted content) i₂ (by omega)
    have hj2 : scanValue (backquoted content) i₂ + 1 < (backquoted content).length := by
      by_contra hcon
      have hlast : scanValue (backquoted content) i₂ + 1 = (backquoted content).length := by
        omega
      have : (backquoted content)[scanValue (backquoted content) i₂]? = some 96 := by
        unfold backquoted at hlast ⊢
        simp only [List.length_cons, List.length_append, List.length_singleton] at hlast
        rw [show scanValue (96 :: (content ++ [96])) i₂ = content.length + 1 by omega]
        simp
      rw [hq] at this
      exact absurd this (by decide)
    have hmem : (96 : Nat) ∈ value :=
      (TrimSuffix_isPrefix value [92, 34]).subset ((Split_isInfix 44 _ x hx).subset h96)
    obtain ⟨n, h1, h2, h3⟩ := slice_mem _ _ _ value hvalue 96 hmem
    exact hclean n 96 (by omega) (by omega) h3 rfl

/-- C14, counterexample: the body `k:"a` has no backtick and leaves its
value without a closing double quote; the value scan runs to the end of the
literal and the value returned ends in the closing backtick. -/
theorem extractTags_value_with_closing_backtick :
    96 ∉ ascii "k:\"a"
    ∧ extractTags ⟨[], 0, some ⟨backquoted (ascii "k:\"a")⟩⟩ = .ok [⟨ascii "k", ascii "a`"⟩]
    ∧ 96 ∈ (fieldTag.mk (ascii "k") (ascii "a`")).val := by
  decide

theorem getLast?_of_suffix (x w : GoString) (h : x <:+ w) (hx : x ≠ []) :
    w.getLast? = x.getLast? := by
  obtain ⟨r, rfl⟩ := h
  rw [List.getLast?_append]
  cases hl : x.getLast? with
  | none => exact absurd (List.getLast?_eq_none_iff.mp hl) hx
  | some b => rfl

theorem backquoted_getLast (content : GoString) : (backquoted content).getLast? = some 96 := by
  unfold backquoted
  rw [← List.cons_append, List.getLast?_append]
  simp

theorem Split_singleton (sep : Nat) (v x : GoString) (h : Split sep v = [x]) : x = v := by
  induction v generalizing x with
  | nil =>
    simp only [Split, List.cons.injEq, and_true] at h
    exact h.symm
  | cons c cs ih =>
    simp only [Split] at h
    split at h
    · simp only [List.cons.injEq] at h
      exact absurd h.2 (Split_ne_nil sep cs)
    · cases heq : Split sep cs with
      | nil => exact absurd heq (Split_ne_nil sep cs)
      | cons hd tl =>
        rw [heq] at h
        simp only [List.cons.injEq] at h
        obtain ⟨h1, h2⟩ := h
        subst h2
        rw [← h1, ih hd heq]

/-- The last element of a comma-split is a suffix of the value. -/
theorem Split_getLast_isSuffix (sep : Nat) (v x : GoString)
    (h : (Split sep v).getLast? = some x) : x <:+ v := by
  induction v generalizing x with
  | nil =>
    simp only [Split, List.getLast?_singleton, Option.some.injEq] at h
    subst h
    exact List.suffix_refl _
  | cons c cs ih =>
    simp only [Split] at h
    split at h
    · cases heq : Split sep cs with
      | nil => exact absurd heq (Split_ne_nil sep cs)
      | cons hd tl =>
        rw [heq, List.getLast?_cons_cons] at h
        exact (ih x (heq ▸ h)).trans (List.suffix_cons c cs)
    · cases heq : Split sep cs with
      | nil => exact absurd heq (Split_ne_nil sep cs)
      | cons hd tl =>
        rw [heq] at h
        simp only at h
        cases tl with
        | nil =>
          simp only [List.getLast?_singleton, Option.some.injEq] at h
          subst h
          rw [Split_singleton sep cs hd heq]
        | cons t2 tl2 =>
          rw [List.getLast?_cons_cons] at h
          have h' : (Split sep cs).getLast? = some x := by
            rw [heq, List.getLast?_cons_cons]
            exact h
          exact (ih x h').trans (List.suffix_cons c cs)

/-- A value appended by an iteration on a backtick-delimited literal whose
content has no backtick, when it has a backtick, is a suffix of the literal:
its scan ran to the end of the literal. -/
theorem body_next_backtick_suffix (content : GoString) (hc : 96 ∉ content) (j i' j' : Nat)
    (tags t : List fieldTag) (hj : 1 ≤ j)
    (h : body (backquoted content) j j tags = .next i' j' t) :
    ∃ new, t = tags ++ new ∧ ∀ e ∈ new, 96 ∈ e.val → e.val <:+ backquoted content := by
  obtain ⟨new, hne, ht, -, hnd, -⟩ := body_next_backtick content hc j i' j' tags t hj h
  obtain ⟨key, value, i₂, -, -, hlt, hi₂, hvalue, hvne, ht', -, -⟩ :=
    body_next_inv (backquoted content) j j i' j' tags t h
  have hnew : new = (Split 44 (TrimSuffix value [92, 34])).map (fun v => fieldTag.mk key v) :=
    List.append_cancel_left (ht ▸ ht')
  refine ⟨new, ht, ?_⟩
  intro e he h96
  rw [hnew] at he
  obtain ⟨x, hx, rfl⟩ := List.mem_map.mp he
  simp only at h96 ⊢
  obtain ⟨hv1, hv2, hveq⟩ := slice_eq _ _ _ value hvalue
  have hk := scanKey_ge (backquoted content) j
  have hvalne : value ≠ [] := by
    rintro rfl
    exact hvne (by simp [TrimSuffix])
  by_cases hend : scanValue (backquoted content) i₂ < (backquoted content).length
  · -- the scan stopped at a double quote: the value lies inside the content
    exfalso
    have hq := scanValue_at (backquoted content) i₂ hend
    have hj2 : scanValue (backquoted content) i₂ + 1 < (backquoted content).length := by
      by_contra hcon
      have hl := backquoted_getLast content
      rw [List.getLast?_eq_getElem?,
        show (backquoted content).length - 1 = scanValue (backquoted content) i₂ by omega,
        hq] at hl
      exact absurd hl (by decide)
    have hmem : (96 : Nat) ∈ value :=
      (TrimSuffix_isPrefix value [92, 34]).subset ((Split_isInfix 44 _ x hx).subset h96)
    obtain ⟨n, h1, h2, h3⟩ := slice_mem _ _ _ value hvalue 96 hmem
    rcases backquoted_getElem content hc n h3 with h0 | hl <;> omega
  · -- the scan ran to the end of the literal
    have hval : value = (backquoted content).drop i₂ := by
      rw [hveq]
      apply List.take_of_length_le
      rw [List.length_drop]
      omega
    have hsuf : value <:+ backquoted content := hval ▸ List.drop_suffix _ _
    have htrim : TrimSuffix value [92, 34] = value := by
      apply TrimSuffix_of_not_suffix
      intro hs
      have h1 := getLast?_of_suffix _ _ (hs.trans hsuf) (by simp)
      rw [backquoted_getLast] at h1
      exact absurd h1 (by decide)
    rw [htrim] at hx
    have hLne := Split_ne_nil 44 value
    have hsplit := List.dropLast_concat_getLast hLne
    rw [← hsplit] at hx
    rcases List.mem_append.mp hx with hx | hx
    · exfalso
      have hmem : fieldTag.mk key x ∈ new.dropLast := by
        rw [hnew, htrim, ← List.map_dropLast]
        exact List.mem_map.mpr ⟨x, hx, rfl⟩
      exact hnd _ hmem h96
    · rw [List.mem_singleton] at hx
      have hlast : (Split 44 value).getLast? = some x := by
        rw [List.getLast?_eq_getLast _ hLne, hx]
      exact (Split_getLast_isSuffix 44 value x hlast).trans hsuf

/-- The value scan runs across ordinary bytes and escape pairs to the end of
the literal when no double quote closes the value. -/
theorem scanValue_escaped_end (v : GoString) (hv : Escaped v) (pre : GoString) :
    scanValue (pre ++ v) pre.length = pre.length + v.length := by
  induction hv generalizing pre with
  | nil =>
    simp only [List.append_nil, List.length_nil, Nat.add_zero]
    exact scanValue_stop _ _ (Or.inr (List.getElem?_eq_none (Nat.le_refl _)))
  | plain c v h34 h92 _ ih =>
    have hc : (pre ++ (c :: v))[pre.length]? = some c := by
      rw [getElem?_at]
      simp
    rw [scanValue_eq, hc]
    simp only [ne_eq, h34, not_false_eq_true, if_true, h92, if_false]
    have hw : pre ++ (c :: v) = (pre ++ [c]) ++ v := by simp
    rw [hw, show pre.length + 1 = (pre ++ [c]).length by simp, ih (pre ++ [c])]
    simp
    omega
  | pair c v _ ih =>
    have hc : (pre ++ (92 :: c :: v))[pre.length]? = some 92 := by
      rw [getElem?_at]
      simp
    rw [scanValue_eq, hc]
    simp only [ne_eq, show (92 : Nat) ≠ 34 by decide, not_false_eq_true, if_true]
    have hw : pre ++ (92 :: c :: v) = (pre ++ [92, c]) ++ v := by simp
    rw [hw, show pre.length + 1 + 1 = (pre ++ [92, c]).length by simp, ih (pre ++ [92, c])]
    simp
    omega

theorem Escaped_append (a b : GoString) (ha : Escaped a) (hb : Escaped b) :
    Escaped (a ++ b) := by
  induction ha with
  | nil => exact hb
  | plain c v h34 h92 _ ih => exact .plain c _ h34 h92 ih
  | pair c v _ ih => exact .pair c _ ih

/-- One iteration of the outer loop on a last segment whose value no double
quote closes: the value runs to the end of the literal, closing delimiter
included. -/
theorem body_segment_unterminated (pre k v : GoString) (tags : List fieldTag)
    (hk : k ≠ []) (hkc : 58 ∉ k) (hesc : Escaped v) :
    body (pre ++ (k ++ (58 :: 34 :: (v ++ [96])))) pre.length pre.length tags
      = .next ((pre ++ (k ++ (58 :: 34 :: (v ++ [96])))).length + 2)
          ((pre ++ (k ++ (58 :: 34 :: (v ++ [96])))).length + 2)
          (tags ++ (Split 44 (v ++ [96])).map (fun s => fieldTag.mk k s)) := by
  have hu : Escaped (v ++ [96]) :=
    Escaped_append v [96] hesc (.plain 96 [] (by decide) (by decide) .nil)
  have hw : pre ++ (k ++ (58 :: 34 :: (v ++ [96])))
      = (pre ++ (k ++ [58, 34])) ++ ((v ++ [96]) ++ []) := by simp
  have hlen : (pre ++ (k ++ [58, 34])).length = pre.length + k.length + 1 + 1 := by
    simp; omega
  have hsuf : ¬ [92, 34] <:+ v ++ [96] := by
    intro hs
    have h1 := getLast?_of_suffix _ _ hs (by simp)
    simp at h1
  unfold body
  simp only
  rw [scanKey_mid pre k _ hkc (Or.inl (by simp)), slice_mid]
  simp only [hk, if_false]
  have hq : (pre ++ (k ++ (58 :: 34 :: (v ++ [96]))))[pre.length + k.length + 1]?
      = some 34 := by
    rw [show pre ++ (k ++ (58 :: 34 :: (v ++ [96])))
      = (pre ++ (k ++ [58])) ++ (34 :: (v ++ [96])) by simp]
    rw [show pre.length + k.length + 1 = (pre ++ (k ++ [58])).length by simp; omega]
    rw [getElem?_at]
    simp
  rw [if_neg (by simp; omega), hq]
  simp only [Option.some.injEq, show (34 : Nat) ≠ 92 by decide, if_false]
  have hscan : scanValue ((pre ++ (k ++ [58, 34])) ++ ((v ++ [96]) ++ []))
      (pre ++ (k ++ [58, 34])).length
      = (pre ++ (k ++ [58, 34])).length + (v ++ [96]).length := by
    rw [List.append_nil]
    exact scanValue_escaped_end (v ++ [96]) hu _
  rw [hw, ← hlen, hscan, slice_mid]
  simp only [TrimSuffix_of_not_suffix (v ++ [96]) _ hsuf, List.append_ne_nil_of_right_ne_nil,
    ne_eq, List.cons_ne_self, not_false_eq_true, if_false]
  simp
  omega

/-- The parse of a backtick-delimited literal made of well-formed segments
followed by a last segment whose value no double quote closes: the entries of
the well-formed segments, then those of the comma-split of the last value
followed by the closing backtick. -/
theorem parseTag_segments_unterminated (segs : List (GoString × GoString))
    (hwf : ∀ s ∈ segs, WellFormed s) (k v : GoString) (hk : k ≠ []) (hkc : 58 ∉ k)
    (hesc : Escaped v) :
    parseTag (backquoted (Join (segs.map segment ++ [k ++ (58 :: 34 :: v)]) [32]))
      = .ok (segs.flatMap segmentTags ++ (Split 44 (v ++ [96])).map (fun s => fieldTag.mk k s)) := by
  unfold parseTag backquoted
  by_cases hne : segs = []
  · subst hne
    have hb := body_segment_unterminated [96] k v [] hk hkc hesc
    have hw : 96 :: (Join (List.map segment [] ++ [k ++ (58 :: 34 :: v)]) [32] ++ [96])
        = [96] ++ (k ++ (58 :: 34 :: (v ++ [96]))) := by simp [Join]
    rw [hw, loop_next _ _ 1 1 _ _ [] _ (by simp) (by simp) hb]
    exact loop_done _ _ _ _ _ (by omega)
  · have hm : segs.map segment ≠ [] := by simpa using hne
    rw [Join_append_singleton _ _ _ hm]
    have hw : 96 :: ((Join (segs.map segment) [32] ++ ([32] ++ (k ++ (58 :: 34 :: v)))) ++ [96])
        = [96] ++ (Join (segs.map segment) [32] ++ 32 :: ((k ++ (58 :: 34 :: v)) ++ [96])) := by
      simp
    have hw2 : [96] ++ (Join (segs.map segment) [32] ++ 32 :: ((k ++ (58 :: 34 :: v)) ++ [96]))
        = ([96] ++ (Join (segs.map segment) [32] ++ [32]))
          ++ (k ++ (58 :: 34 :: (v ++ [96]))) := by simp
    rw [hw]
    have h1 := loop_segments segs hne hwf [96] 32 ((k ++ (58 :: 34 :: v)) ++ [96]) []
      ([96] ++ (Join (segs.map segment) [32]
        ++ 32 :: ((k ++ (58 :: 34 :: v)) ++ [96]))).length (by simp)
    simp only [List.length_singleton, List.nil_append] at h1
    rw [h1]
    have hb := body_segment_unterminated ([96] ++ (Join (segs.map segment) [32] ++ [32])) k v
      (segs.flatMap segmentTags) hk hkc hesc
    rw [← hw2] at hb
    have hl : ([96] ++ (Join (segs.map segment) [32] ++ [32])).length
        = 1 + (Join (segs.map segment) [32]).length + 1 := by simp; omega
    rw [hl] at hb
    rw [loop_next _ _ _ _ _ _ _ _ (by simp) (by simp; omega) hb]
    exact loop_done _ _ _ _ _ (by omega)

/-- The last element of the comma-split of a value followed by a byte other
than the comma ends in that byte. -/
theorem Split_append_getLast (sep c : Nat) (hc : c ≠ sep) (v : GoString) :
    ∃ l, (Split sep (v ++ [c])).getLast? = some l ∧ l.getLast? = some c := by
  induction v with
  | nil =>
    refine ⟨[c], ?_, rfl⟩
    simp [Split, hc]
  | cons b bs ih =>
    obtain ⟨l, hl, hlc⟩ := ih
    refine ⟨if b = sep then l else
      match Split sep (bs ++ [c]) with
      | [hd] => b :: hd
      | _ => l, ?_, ?_⟩
    · simp only [List.cons_append, Split]
      split
      · cases heq : Split sep (bs ++ [c]) with
        | nil => exact absurd heq (Split_ne_nil sep _)
        | cons hd tl => rw [List.getLast?_cons_cons, ← heq, hl]
      · cases heq : Split sep (bs ++ [c]) with
        | nil => exact absurd heq (Split_ne_nil sep _)
        | cons hd tl =>
          cases tl with
          | nil => simp
          | cons t2 tl2 =>
            rw [heq] at hl
            simp only [List.getLast?_cons_cons] at hl ⊢
            exact hl
    · split
      · exact hlc
      · cases heq : Split sep (bs ++ [c]) with
        | nil => exact absurd heq (Split_ne_nil sep _)
        | cons hd tl =>
          cases tl with
          | nil =>
            simp only
            rw [heq] at hl
            simp only [List.getLast?_singleton, Option.some.injEq] at hl
            subst hl
            cases hd with
            | nil => simp at hlc
            | cons h1 h2 => rw [List.getLast?_cons_cons]; exact hlc
          | cons t2 tl2 => exact hlc

/-- C14, amended: only the opening delimiter is skipped before the scan; no
step removes the closing one.  On the literal made of a backtick, a body
without backtick and a closing backtick, `extractTags` returns entries of
which no key has a backtick and no value other than the value of the last
entry has one; a value that has a backtick is a suffix of the literal: it
runs to the end of the literal and ends in the closing backtick.  That is what
happens when no double quote closes the last value of the body: for
well-formed segments followed by `k:"v`, with `v` made of ordinary bytes and
escape pairs, the entries are those of the well-formed segments followed by
those of the comma-split of `v` followed by the closing backtick, and the
last value ends in that backtick. -/
theorem extractTags_backtick (field : Field) (content : GoString) (hc : 96 ∉ content)
    (htag : field.Tag = some ⟨backquoted content⟩) :
    (∃ tags, extractTags field = .ok tags
      ∧ (∀ t ∈ tags, 96 ∉ t.key) ∧ (∀ t ∈ tags.dropLast, 96 ∉ t.val)
      ∧ (∀ t ∈ tags, 96 ∈ t.val →
          t.val <:+ backquoted content ∧ t.val.getLast? = some 96))
    ∧ (∀ (segs : List (GoString × GoString)) (k v : GoString) (f : Field),
        (∀ s ∈ segs, WellFormed s) → k ≠ [] → 58 ∉ k → Escaped v →
        f.Tag = some ⟨backquoted (Join (segs.map segment ++ [k ++ ascii ":\"" ++ v]) [32])⟩ →
        extractTags f
            = .ok ((segs.flatMap fun kv => (Split 44 kv.2).map fun s => fieldTag.mk kv.1 s)
                ++ (Split 44 (v ++ ascii "`")).map fun s => fieldTag.mk k s)
          ∧ ∃ l, (Split 44 (v ++ ascii "`")).getLast? = some l ∧ l.getLast? = some 96) := by
  constructor
  · have hlast : (backquoted content).getLast? ≠ some 92 := by
      rw [backquoted_getLast]
      decide
    obtain ⟨tags, htags⟩ := parseTag_ok (backquoted content) hlast
    refine ⟨tags, by simp [extractTags, htag, htags], ?_⟩
    obtain ⟨j', -, h1, h2, -, h3⟩ := loop_induct (backquoted content)
      (fun j ts => 1 ≤ j ∧ (∀ e ∈ ts, 96 ∉ e.key) ∧ (∀ e ∈ ts.dropLast, 96 ∉ e.val)
        ∧ (j < (backquoted content).length → ∀ e ∈ ts, 96 ∉ e.val)
        ∧ (∀ e ∈ ts, 96 ∈ e.val → e.val <:+ backquoted content))
      (fun j ts i' j' t hI hj hb => by
        obtain ⟨hj1, hk, -, hall, hsuf⟩ := hI
        obtain ⟨new, hne, ht, hnk, hnd, hnl⟩ :=
          body_next_backtick content hc j i' j' ts t hj1 hb
        obtain ⟨new', ht', hns⟩ := body_next_backtick_suffix content hc j i' j' ts t hj1 hb
        have hnew : new' = new := List.append_cancel_left (ht' ▸ ht)
        subst hnew
        subst ht
        have hadv := (body_next _ j j i' j' ts _ hb).2
        refine ⟨by omega, ?_, ?_, ?_, ?_⟩
        · intro e he
          rcases List.mem_append.mp he with he | he
          · exact hk e he
          · exact hnk e he
        · intro e he
          rw [List.dropLast_append_of_ne_nil _ hne] at he
          rcases List.mem_append.mp he with he | he
          · exact hall hj e he
          · exact hnd e he
        · intro hlt e he
          rcases List.mem_append.mp he with he | he
          · exact hall hj e he
          · exact hnl hlt e he
        · intro e he
          rcases List.mem_append.mp he with he | he
          · exact hsuf e he
          · exact hns e he)
      (backquoted content).length 1 [] tags (by simp) htags
    refine ⟨h1, h2, ?_⟩
    intro t ht h96
    have hs := h3 t ht h96
    have hne : t.val ≠ [] := List.ne_nil_of_mem h96
    refine ⟨hs, ?_⟩
    rw [← getLast?_of_suffix _ _ hs hne, backquoted_getLast]
  · intro segs k v f hwf hk hkc hesc hf
    refine ⟨?_, Split_append_getLast 44 96 (by decide) v⟩
    have he : k ++ ascii ":\"" ++ v = k ++ (58 :: 34 :: v) := by simp [ascii]
    have hq : ascii "`" = [96] := by decide
    unfold extractTags
    rw [hf, he, hq]
    exact parseTag_segments_unterminated segs hwf k v hk hkc hesc

theorem extractTags_backtick_witness :
    (∃ tags, extractTags ⟨[], 0, some ⟨backquoted (ascii "k:\"x,y")⟩⟩ = .ok tags
      ∧ (∀ t ∈ tags, 96 ∉ t.key) ∧ (∀ t ∈ tags.dropLast, 96 ∉ t.val)
      ∧ (∀ t ∈ tags, 96 ∈ t.val →
          t.val <:+ backquoted (ascii "k:\"x,y") ∧ t.val.getLast? = some 96))
    ∧ extractTags ⟨[], 0, some ⟨ascii "`json:\"a\" k:\"x,y`"⟩⟩
      = .ok [⟨ascii "json", ascii "a"⟩, ⟨ascii "k", ascii "x"⟩, ⟨ascii "k", ascii "y`"⟩] :=
  have h := extractTags_backtick ⟨[], 0, some ⟨backquoted (ascii "k:\"x,y")⟩⟩
    (ascii "k:\"x,y") (by decide) rfl
  ⟨h.1,
    (h.2 [(ascii "json", ascii "a")] (ascii "k") (ascii "x,y")
      ⟨[], 0, some ⟨ascii "`json:\"a\" k:\"x,y`"⟩⟩ (by decide) (by decide) (by decide)
      (.plain 120 _ (by decide) (by decide) (.plain 44 _ (by decide) (by decide)
        (.plain 121 _ (by decide) (by decide) .nil)))
      (by decide)).1⟩

/-! ## `extractTags` never fails on a tag literal -/

theorem IsStringLiteral.getLast_ne (w : GoString) (h : IsStringLiteral w) :
    w.getLast? ≠ some 92 := by
  obtain ⟨-, h | h⟩ := h <;> rw [h.2] <;> decide

/-- C9: `extractTags` never fails.  On a field without a tag and on every raw
tag literal (a string literal delimited by backticks or by double quotes),
whatever stands between the delimiters, every read and every slice of
`extractTags` is in bounds and a (possibly partial) sequence of entries is
returned; so for a missing colon, a missing value, an empty value and a
dangling backslash before the closing delimiter. -/
theorem extractTags_never_fails (field : Field)
    (h : ∀ w : GoString, field.Tag = some ⟨w⟩ → IsStringLiteral w) :
    (∃ tags, extractTags field = .ok tags)
    ∧ (∀ a ∈ extractTagsAccesses field, ∃ w, field.Tag = some ⟨w⟩ ∧ a.InBounds w)
    ∧ extractTags ⟨[], 0, some ⟨ascii "`k1:\"v1\" k2`"⟩⟩ = .ok [⟨ascii "k1", ascii "v1"⟩]
    ∧ extractTags ⟨[], 0, some ⟨ascii "`k:`"⟩⟩ = .ok []
    ∧ extractTags ⟨[], 0, some ⟨ascii "`k:\"\"`"⟩⟩ = .ok []
    ∧ extractTags ⟨[], 0, some ⟨ascii "`k:\"a\\`"⟩⟩ = .ok [⟨ascii "k", ascii "a\\`"⟩]
    ∧ extractTags ⟨[], 0, some ⟨ascii "\"k:\\\"\""⟩⟩ = .ok [] := by
  refine ⟨?_, ?_, by decide, by decide, by decide, by decide, by decide⟩
  · unfold extractTags
    cases hf : field.Tag with
    | none => exact ⟨[], rfl⟩
    | some lit => exact parseTag_ok lit.Value (IsStringLiteral.getLast_ne _ (h lit.Value hf))
  · unfold extractTagsAccesses
    cases hf : field.Tag with
    | none => simp
    | some lit =>
      intro a ha
      exact ⟨lit.Value, rfl, loopAccesses_inBounds lit.Value
        (IsStringLiteral.getLast_ne _ (h lit.Value hf)) lit.Value.length 1 1 []
        (Nat.le_refl 1) (Nat.le_refl 1) a ha⟩

theorem extractTags_never_fails_witness :
    IsStringLiteral (ascii "`k1:\"v1\" :\"x\" k3:\"a\\`")
    ∧ (∃ tags, extractTags ⟨[], 0, some ⟨ascii "`k1:\"v1\" :\"x\" k3:\"a\\`"⟩⟩ = .ok tags)
    ∧ ∀ a ∈ extractTagsAccesses ⟨[], 0, some ⟨ascii "`k1:\"v1\" :\"x\" k3:\"a\\`"⟩⟩,
        ∃ w, (⟨[], 0, some ⟨ascii "`k1:\"v1\" :\"x\" k3:\"a\\`"⟩⟩ : Field).Tag = some ⟨w⟩
          ∧ a.InBounds w :=
  have h := extractTags_never_fails ⟨[], 0, some ⟨ascii "`k1:\"v1\" :\"x\" k3:\"a\\`"⟩⟩
    fun w hw => by
      cases hw
      decide
  ⟨by decide, h.1, h.2.1⟩

end fieldtags
